import Mathlib

/-!
Verification of the holefill library (`src/holefill.cpp` / `src/holefill.h`).

The C++ code operates on a row-major `float` buffer of size `width * height`,
where a negative value marks a "hole" pixel.  We embed the buffer as a
`List ℚ` (exact rational arithmetic in place of IEEE `float`), coordinates as
pairs of integers, and each routine of the source as an executable Lean
function following the source line by line.
-/

/-- Integer pixel coordinate, mirroring `struct Coord { int32_t x; int32_t y; }`. -/
structure Coord where
  x : Int
  y : Int
deriving DecidableEq, Repr

/-- `getPixel(image, x, y, width)`: read `image[y * width + x]`.
Out-of-range reads (which the C++ never performs on in-bounds coordinates)
default to `0`. -/
def getPixel (image : List ℚ) (x y : Int) (width : Nat) : ℚ :=
  image.getD (y * width + x).toNat 0

/-- Write `image[y * width + x] = v`, the in-place store of the source. -/
def setPixel (image : List ℚ) (x y : Int) (width : Nat) (v : ℚ) : List ℚ :=
  image.set (y * width + x).toNat v

/-- Flat row-major index of a coordinate. -/
def flatIdx (width : Nat) (c : Coord) : Nat :=
  (c.y * width + c.x).toNat

/-- The coordinate lies inside the `width × height` grid. -/
def inGrid (width height : Nat) (c : Coord) : Prop :=
  0 ≤ c.x ∧ c.x < (width : Int) ∧ 0 ≤ c.y ∧ c.y < (height : Int)

instance (width height : Nat) (c : Coord) : Decidable (inGrid width height c) := by
  unfold inGrid; infer_instance

/-- The four axis-aligned neighbour offsets of `findBoundaryPixels`. -/
def offsets4 : List Coord :=
  [⟨-1, 0⟩, ⟨1, 0⟩, ⟨0, -1⟩, ⟨0, 1⟩]

/-- The four diagonal offsets appended under 8-connectivity. -/
def offsetsDiag : List Coord :=
  [⟨-1, -1⟩, ⟨-1, 1⟩, ⟨1, -1⟩, ⟨1, 1⟩]

/-- Neighbour offsets for the chosen connectivity, in the source's order. -/
def offsets (use8Connectivity : Bool) : List Coord :=
  offsets4 ++ if use8Connectivity then offsetsDiag else []

/-- The fixed 8-connected offset table of `fillApproximate`. -/
def offsets8 : List Coord :=
  offsets true

/-- `findHolePixels`: row-major scan (y outer, x inner) collecting every
coordinate whose intensity is negative. -/
def findHolePixels (image : List ℚ) (width height : Nat) : List Coord :=
  (List.range height).flatMap (fun (y : Nat) =>
    (List.range width).filterMap (fun (x : Nat) =>
      if getPixel image (x : Int) (y : Int) width < 0 then
        some ⟨(x : Int), (y : Int)⟩ else none))

/-- `findBoundaryPixels`: for each hole pixel, each offset neighbour that is
in bounds, not itself a hole, and has non-negative intensity is appended to
the result unless already present (the C++ `boundarySet` duplicate check). -/
def findBoundaryPixels (image : List ℚ) (width height : Nat)
    (holePixels : List Coord) (use8Connectivity : Bool) : List Coord :=
  holePixels.foldl (fun acc p =>
    (offsets use8Connectivity).foldl (fun acc off =>
      if (0 ≤ p.y + off.y ∧ p.y + off.y < (height : Int) ∧
          0 ≤ p.x + off.x ∧ p.x + off.x < (width : Int)) ∧
          Coord.mk (p.x + off.x) (p.y + off.y) ∉ holePixels ∧
          0 ≤ getPixel image (p.x + off.x) (p.y + off.y) width then
        if Coord.mk (p.x + off.x) (p.y + off.y) ∈ acc then acc
        else acc ++ [⟨p.x + off.x, p.y + off.y⟩]
      else acc) acc) []

/-- The raw stream of qualifying boundary candidates, in discovery order and
with duplicates retained: used to state that `findBoundaryPixels` keeps the
first discovery of each boundary pixel. -/
def boundaryCandidates (image : List ℚ) (width height : Nat)
    (holePixels : List Coord) (use8Connectivity : Bool) : List Coord :=
  holePixels.flatMap (fun p =>
    (offsets use8Connectivity).filterMap (fun off =>
      if (0 ≤ p.y + off.y ∧ p.y + off.y < (height : Int) ∧
          0 ≤ p.x + off.x ∧ p.x + off.x < (width : Int)) ∧
          Coord.mk (p.x + off.x) (p.y + off.y) ∉ holePixels ∧
          0 ≤ getPixel image (p.x + off.x) (p.y + off.y) width then
        some ⟨p.x + off.x, p.y + off.y⟩ else none))

/-- One step of first-occurrence deduplication. -/
def dedupIns (acc : List Coord) (c : Coord) : List Coord :=
  if c ∈ acc then acc else acc ++ [c]

/-- Deduplication keeping the first occurrence of each element. -/
def dedupFirst (l : List Coord) : List Coord :=
  l.foldl dedupIns []

/-- `FLT_EPSILON = 2⁻²³`, the denominator guard of the weighted fills. -/
def eps : ℚ :=
  1 / 2 ^ 23

/-- `fill`: the exhaustive weighted-average filler.  For each hole pixel `u`
it accumulates `numerator += w(u,v) * image[v]`, `denominator += w(u,v)`
over every boundary pixel `v`, then stores `numerator / denominator` when the
denominator exceeds `eps`, else the fallback `0`. -/
def fill (image : List ℚ) (width height : Nat)
    (weightFunc : Coord → Coord → ℚ) : List ℚ :=
  let holePixels := findHolePixels image width height
  let boundaryPixels := findBoundaryPixels image width height holePixels true
  holePixels.foldl (fun img u =>
    let acc := boundaryPixels.foldl (fun nd v =>
      (nd.1 + weightFunc u v * getPixel img v.x v.y width,
       nd.2 + weightFunc u v)) ((0 : ℚ), (0 : ℚ))
    setPixel img u.x u.y width (if eps < acc.2 then acc.1 / acc.2 else 0)) image

/-- Specification-side sum `Σ_v w(u,v)` over a list of coordinates. -/
def weightSum (weightFunc : Coord → Coord → ℚ) (u : Coord) (vs : List Coord) : ℚ :=
  vs.foldl (fun a v => a + weightFunc u v) 0

/-- Specification-side sum `Σ_v w(u,v) · image[v]` over a list of coordinates,
read from the given (pre-fill) buffer. -/
def weightedValueSum (image : List ℚ) (width : Nat)
    (weightFunc : Coord → Coord → ℚ) (u : Coord) (vs : List Coord) : ℚ :=
  vs.foldl (fun a v => a + weightFunc u v * getPixel image v.x v.y width) 0

theorem findHolePixels_mem (image : List ℚ) (width height : Nat) (u : Coord) :
    u ∈ findHolePixels image width height ↔
      inGrid width height u ∧ getPixel image u.x u.y width < 0 := by
  unfold findHolePixels inGrid
  simp only [List.mem_flatMap, List.mem_filterMap, List.mem_range]
  constructor
  · rintro ⟨y, hy, x, hx, hcond⟩
    split at hcond
    · rename_i hneg
      cases hcond
      refine ⟨⟨Int.natCast_nonneg x, ?_, Int.natCast_nonneg y, ?_⟩, hneg⟩
      · show (x : Int) < (width : Int)
        exact_mod_cast hx
      · show (y : Int) < (height : Int)
        exact_mod_cast hy
    · cases hcond
  · rintro ⟨⟨hx0, hxw, hy0, hyh⟩, hneg⟩
    refine ⟨u.y.toNat, by omega, u.x.toNat, by omega, ?_⟩
    have hx : (u.x.toNat : Int) = u.x := by omega
    have hy : (u.y.toNat : Int) = u.y := by omega
    rw [hx, hy, if_pos hneg]

theorem findHolePixels_nodup (image : List ℚ) (width height : Nat) :
    (findHolePixels image width height).Nodup := by
  unfold findHolePixels
  rw [List.nodup_flatMap]
  constructor
  · intro y _
    apply List.Nodup.filterMap
    · intro a a' b hb hb'
      split at hb
      · split at hb'
        · cases hb; cases hb'
          rename_i h1 _ h2
          omega
        · cases hb'
      · cases hb
    · exact List.nodup_range width
  · refine List.Pairwise.imp ?_ (List.nodup_range height)
    intro y y' hne
    simp only [Function.onFun, List.disjoint_left]
    intro c hc hc'
    simp only [List.mem_filterMap] at hc hc'
    obtain ⟨x, _, hx⟩ := hc
    obtain ⟨x', _, hx'⟩ := hc'
    split at hx
    · split at hx'
      · cases hx; cases hx'
        rename_i h1 _ _ h2
        exact hne (by omega)
      · cases hx'
    · cases hx

theorem getD_set_eq (l : List ℚ) (i : Nat) (a : ℚ) (h : i < l.length) :
    (l.set i a).getD i 0 = a := by
  induction l generalizing i with
  | nil => simp at h
  | cons b t ih =>
    cases i with
    | zero => simp [List.set]
    | succ n =>
      simp only [List.set, List.getD_cons_succ]
      exact ih n (by simpa using h)

theorem getD_set_ne (l : List ℚ) (i j : Nat) (a : ℚ) (h : i ≠ j) :
    (l.set i a).getD j 0 = l.getD j 0 := by
  induction l generalizing i j with
  | nil => simp [List.set]
  | cons b t ih =>
    cases i with
    | zero =>
      cases j with
      | zero => exact absurd rfl h
      | succ m => simp [List.set]
    | succ n =>
      cases j with
      | zero => simp [List.set]
      | succ m =>
        simp only [List.set, List.getD_cons_succ]
        exact ih n m (by omega)

theorem flatIdx_lt (width height : Nat) (c : Coord) (h : inGrid width height c) :
    flatIdx width c < width * height := by
  obtain ⟨hx0, hxw, hy0, hyh⟩ := h
  unfold flatIdx
  have hw : (0 : Int) < width := by omega
  have h1 : c.y + 1 ≤ (height : Int) := by omega
  have h2 : (c.y + 1) * width ≤ (height : Int) * width :=
    mul_le_mul_of_nonneg_right h1 (by omega)
  have h3 : c.y * width + c.x < (height : Int) * width := by nlinarith
  have hcast : ((width * height : Nat) : Int) = (height : Int) * (width : Int) := by
    push_cast; ring
  have hpos : 0 < width * height := Nat.mul_pos (by omega) (by omega)
  omega

theorem flatIdx_inj (width height : Nat) (a b : Coord)
    (ha : inGrid width height a) (hb : inGrid width height b)
    (h : flatIdx width a = flatIdx width b) : a = b := by
  obtain ⟨hax, haxw, hay, hayh⟩ := ha
  obtain ⟨hbx, hbxw, hby, hbyh⟩ := hb
  unfold flatIdx at h
  have ha' : 0 ≤ a.y * (width : Int) := mul_nonneg hay (by positivity)
  have hb' : 0 ≤ b.y * (width : Int) := mul_nonneg hby (by positivity)
  have h' : a.y * width + a.x = b.y * width + b.x := by omega
  have hyeq : a.y = b.y := by
    rcases lt_trichotomy a.y b.y with hlt | heq | hgt
    · have : (a.y + 1) * width ≤ b.y * width :=
        mul_le_mul_of_nonneg_right (by omega) (by omega)
      nlinarith
    · exact heq
    · have : (b.y + 1) * width ≤ a.y * width :=
        mul_le_mul_of_nonneg_right (by omega) (by omega)
      nlinarith
  have hxeq : a.x = b.x := by
    rw [hyeq] at h'
    omega
  cases a; cases b
  simp_all

theorem getPixel_setPixel_eq (l : List ℚ) (width height : Nat) (c : Coord)
    (hlen : l.length = width * height) (hc : inGrid width height c) (v : ℚ) :
    getPixel (setPixel l c.x c.y width v) c.x c.y width = v := by
  unfold getPixel setPixel
  exact getD_set_eq _ _ _ (by rw [hlen]; exact flatIdx_lt width height c hc)

theorem getPixel_setPixel_ne (l : List ℚ) (width height : Nat) (c d : Coord)
    (hc : inGrid width height c) (hd : inGrid width height d) (hne : c ≠ d) (v : ℚ) :
    getPixel (setPixel l c.x c.y width v) d.x d.y width = getPixel l d.x d.y width := by
  unfold getPixel setPixel
  exact getD_set_ne _ _ _ _ (fun h => hne (flatIdx_inj width height c d hc hd h))

theorem setPixel_length (l : List ℚ) (x y : Int) (width : Nat) (v : ℚ) :
    (setPixel l x y width v).length = l.length := by
  unfold setPixel
  exact List.length_set l (y * width + x).toNat v

theorem dedupIns_foldl_mem (l : List Coord) :
    ∀ (acc : List Coord) (x : Coord),
      x ∈ l.foldl dedupIns acc ↔ x ∈ acc ∨ x ∈ l := by
  induction l with
  | nil => intro acc x; simp
  | cons c t ih =>
    intro acc x
    simp only [List.foldl_cons, ih, List.mem_cons]
    unfold dedupIns
    split
    · rename_i hc
      constructor
      · rintro (h | h)
        · exact Or.inl h
        · exact Or.inr (Or.inr h)
      · rintro (h | h | h)
        · exact Or.inl h
        · exact Or.inl (h ▸ hc)
        · exact Or.inr h
    · simp only [List.mem_append, List.mem_singleton]
      tauto

theorem dedupIns_foldl_nodup (l : List Coord) :
    ∀ (acc : List Coord), acc.Nodup → (l.foldl dedupIns acc).Nodup := by
  induction l with
  | nil => intro acc h; simpa using h
  | cons c t ih =>
    intro acc h
    simp only [List.foldl_cons]
    apply ih
    unfold dedupIns
    split
    · exact h
    · rename_i hc
      simpa [List.nodup_append] using ⟨h, hc⟩

theorem dedupFirst_mem (l : List Coord) (x : Coord) :
    x ∈ dedupFirst l ↔ x ∈ l := by
  unfold dedupFirst
  simp [dedupIns_foldl_mem]

theorem dedupFirst_nodup (l : List Coord) : (dedupFirst l).Nodup :=
  dedupIns_foldl_nodup l [] List.nodup_nil

theorem findBoundaryPixels_eq_dedup (image : List ℚ) (width height : Nat)
    (holePixels : List Coord) (use8Connectivity : Bool) :
    findBoundaryPixels image width height holePixels use8Connectivity =
      dedupFirst (boundaryCandidates image width height holePixels use8Connectivity) := by
  unfold findBoundaryPixels boundaryCandidates dedupFirst
  generalize offsets use8Connectivity = offs
  suffices h : ∀ (holes : List Coord) (acc : List Coord),
      holes.foldl (fun acc p =>
        offs.foldl (fun acc off =>
          if (0 ≤ p.y + off.y ∧ p.y + off.y < (height : Int) ∧
              0 ≤ p.x + off.x ∧ p.x + off.x < (width : Int)) ∧
              Coord.mk (p.x + off.x) (p.y + off.y) ∉ holePixels ∧
              0 ≤ getPixel image (p.x + off.x) (p.y + off.y) width then
            if Coord.mk (p.x + off.x) (p.y + off.y) ∈ acc then acc
            else acc ++ [⟨p.x + off.x, p.y + off.y⟩]
          else acc) acc) acc =
      (holes.flatMap (fun p =>
        offs.filterMap (fun off =>
          if (0 ≤ p.y + off.y ∧ p.y + off.y < (height : Int) ∧
              0 ≤ p.x + off.x ∧ p.x + off.x < (width : Int)) ∧
              Coord.mk (p.x + off.x) (p.y + off.y) ∉ holePixels ∧
              0 ≤ getPixel image (p.x + off.x) (p.y + off.y) width then
            some ⟨p.x + off.x, p.y + off.y⟩ else none))).foldl dedupIns acc by
    exact h holePixels []
  have hinner : ∀ (p : Coord) (os : List Coord) (acc : List Coord),
      os.foldl (fun acc off =>
        if (0 ≤ p.y + off.y ∧ p.y + off.y < (height : Int) ∧
            0 ≤ p.x + off.x ∧ p.x + off.x < (width : Int)) ∧
            Coord.mk (p.x + off.x) (p.y + off.y) ∉ holePixels ∧
            0 ≤ getPixel image (p.x + off.x) (p.y + off.y) width then
          if Coord.mk (p.x + off.x) (p.y + off.y) ∈ acc then acc
          else acc ++ [⟨p.x + off.x, p.y + off.y⟩]
        else acc) acc =
      (os.filterMap (fun off =>
        if (0 ≤ p.y + off.y ∧ p.y + off.y < (height : Int) ∧
            0 ≤ p.x + off.x ∧ p.x + off.x < (width : Int)) ∧
            Coord.mk (p.x + off.x) (p.y + off.y) ∉ holePixels ∧
            0 ≤ getPixel image (p.x + off.x) (p.y + off.y) width then
          some ⟨p.x + off.x, p.y + off.y⟩ else none)).foldl dedupIns acc := by
    intro p os
    induction os with
    | nil => intro acc; rfl
    | cons off t ih =>
      intro acc
      simp only [List.foldl_cons, List.filterMap_cons]
      split
      · simp only [List.foldl_cons]
        rw [ih]
        rfl
      · rw [ih]
  intro holes
  induction holes with
  | nil => intro acc; rfl
  | cons p t ih =>
    intro acc
    simp only [List.foldl_cons, List.flatMap_cons, List.foldl_append]
    rw [hinner, ih]

theorem boundaryCandidates_mem (image : List ℚ) (width height : Nat)
    (holePixels : List Coord) (use8Connectivity : Bool) (b : Coord) :
    b ∈ boundaryCandidates image width height holePixels use8Connectivity ↔
      inGrid width height b ∧ b ∉ holePixels ∧ 0 ≤ getPixel image b.x b.y width ∧
        ∃ p ∈ holePixels, ∃ off ∈ offsets use8Connectivity,
          b = ⟨p.x + off.x, p.y + off.y⟩ := by
  unfold boundaryCandidates
  simp only [List.mem_flatMap, List.mem_filterMap]
  constructor
  · rintro ⟨p, hp, off, hoff, hcond⟩
    split at hcond
    · rename_i hc
      cases hcond
      obtain ⟨⟨h1, h2, h3, h4⟩, h5, h6⟩ := hc
      exact ⟨⟨h3, h4, h1, h2⟩, h5, h6, p, hp, off, hoff, rfl⟩
    · cases hcond
  · rintro ⟨⟨h1, h2, h3, h4⟩, h5, h6, p, hp, off, hoff, rfl⟩
    refine ⟨p, hp, off, hoff, ?_⟩
    rw [if_pos ⟨⟨h3, h4, h1, h2⟩, h5, h6⟩]

theorem findBoundaryPixels_mem (image : List ℚ) (width height : Nat)
    (holePixels : List Coord) (use8Connectivity : Bool) (b : Coord) :
    b ∈ findBoundaryPixels image width height holePixels use8Connectivity ↔
      inGrid width height b ∧ b ∉ holePixels ∧ 0 ≤ getPixel image b.x b.y width ∧
        ∃ p ∈ holePixels, ∃ off ∈ offsets use8Connectivity,
          b = ⟨p.x + off.x, p.y + off.y⟩ := by
  rw [findBoundaryPixels_eq_dedup, dedupFirst_mem, boundaryCandidates_mem]

theorem findBoundaryPixels_nodup (image : List ℚ) (width height : Nat)
    (holePixels : List Coord) (use8Connectivity : Bool) :
    (findBoundaryPixels image width height holePixels use8Connectivity).Nodup := by
  rw [findBoundaryPixels_eq_dedup]
  exact dedupFirst_nodup _

/-- One iteration of the weighted-average fill loop body at hole pixel `u`:
shared by `fill` (summing over every boundary pixel) and
`fillExactWithSearch` (summing over the radius-query matches), with `sel u`
the list of coordinates summed over. -/
def fillStep (width : Nat) (weightFunc : Coord → Coord → ℚ)
    (sel : Coord → List Coord) (img : List ℚ) (u : Coord) : List ℚ :=
  let acc := (sel u).foldl (fun nd v =>
    (nd.1 + weightFunc u v * getPixel img v.x v.y width,
     nd.2 + weightFunc u v)) ((0 : ℚ), (0 : ℚ))
  setPixel img u.x u.y width (if eps < acc.2 then acc.1 / acc.2 else 0)

def fillFold (width : Nat) (weightFunc : Coord → Coord → ℚ)
    (sel : Coord → List Coord) (holes : List Coord) (img0 : List ℚ) : List ℚ :=
  holes.foldl (fillStep width weightFunc sel) img0

theorem fill_eq_fillFold (image : List ℚ) (width height : Nat)
    (weightFunc : Coord → Coord → ℚ) :
    fill image width height weightFunc =
      fillFold width weightFunc
        (fun _ => findBoundaryPixels image width height
          (findHolePixels image width height) true)
        (findHolePixels image width height) image := rfl

theorem foldl_add_shift (f : Coord → ℚ) (l : List Coord) :
    ∀ a : ℚ, l.foldl (fun s v => s + f v) a = a + l.foldl (fun s v => s + f v) 0 := by
  induction l with
  | nil => intro a; simp
  | cons v t ih =>
    intro a
    simp only [List.foldl_cons]
    rw [ih (a + f v), ih (0 + f v)]
    ring

theorem weightSum_cons (weightFunc : Coord → Coord → ℚ) (u v : Coord) (t : List Coord) :
    weightSum weightFunc u (v :: t) = weightFunc u v + weightSum weightFunc u t := by
  unfold weightSum
  simp only [List.foldl_cons]
  rw [foldl_add_shift]
  ring

theorem weightedValueSum_cons (image : List ℚ) (width : Nat)
    (weightFunc : Coord → Coord → ℚ) (u v : Coord) (t : List Coord) :
    weightedValueSum image width weightFunc u (v :: t) =
      weightFunc u v * getPixel image v.x v.y width +
        weightedValueSum image width weightFunc u t := by
  unfold weightedValueSum
  simp only [List.foldl_cons]
  rw [foldl_add_shift]
  ring

theorem pairFold_eq (image : List ℚ) (width : Nat)
    (weightFunc : Coord → Coord → ℚ) (u : Coord) (vs : List Coord) :
    vs.foldl (fun nd v =>
        (nd.1 + weightFunc u v * getPixel image v.x v.y width,
         nd.2 + weightFunc u v)) ((0 : ℚ), (0 : ℚ)) =
      (weightedValueSum image width weightFunc u vs, weightSum weightFunc u vs) := by
  suffices h : ∀ (a b : ℚ), vs.foldl (fun nd v =>
      (nd.1 + weightFunc u v * getPixel image v.x v.y width,
       nd.2 + weightFunc u v)) (a, b) =
      (a + weightedValueSum image width weightFunc u vs,
       b + weightSum weightFunc u vs) by
    rw [h 0 0]; ring_nf
  induction vs with
  | nil =>
    intro a b
    simp [weightedValueSum, weightSum]
  | cons v t ih =>
    intro a b
    simp only [List.foldl_cons]
    rw [ih, weightSum_cons, weightedValueSum_cons]
    ring_nf

theorem weightedValueSum_congr (img1 img2 : List ℚ) (width : Nat)
    (weightFunc : Coord → Coord → ℚ) (u : Coord) (vs : List Coord)
    (h : ∀ v ∈ vs, getPixel img1 v.x v.y width = getPixel img2 v.x v.y width) :
    weightedValueSum img1 width weightFunc u vs =
      weightedValueSum img2 width weightFunc u vs := by
  induction vs with
  | nil => rfl
  | cons v t ih =>
    rw [weightedValueSum_cons, weightedValueSum_cons,
      h v (List.mem_cons_self v t), ih (fun w hw => h w (List.mem_cons_of_mem v hw))]

theorem fillFold_length (width : Nat) (weightFunc : Coord → Coord → ℚ)
    (sel : Coord → List Coord) :
    ∀ (holes : List Coord) (img : List ℚ),
      (fillFold width weightFunc sel holes img).length = img.length := by
  intro holes
  induction holes with
  | nil => intro img; rfl
  | cons u t ih =>
    intro img
    show (fillFold width weightFunc sel t (fillStep width weightFunc sel img u)).length = _
    rw [ih]
    unfold fillStep
    rw [setPixel_length]

theorem fillStep_length (width : Nat) (weightFunc : Coord → Coord → ℚ)
    (sel : Coord → List Coord) (img : List ℚ) (u : Coord) :
    (fillStep width weightFunc sel img u).length = img.length := by
  unfold fillStep
  rw [setPixel_length]

theorem fillStep_get_eq (width height : Nat) (weightFunc : Coord → Coord → ℚ)
    (sel : Coord → List Coord) (img : List ℚ) (u : Coord)
    (hlen : img.length = width * height) (hu : inGrid width height u) :
    getPixel (fillStep width weightFunc sel img u) u.x u.y width =
      if eps < weightSum weightFunc u (sel u) then
        weightedValueSum img width weightFunc u (sel u) /
          weightSum weightFunc u (sel u)
      else 0 := by
  unfold fillStep
  rw [pairFold_eq]
  exact getPixel_setPixel_eq img width height u hlen hu _

theorem fillStep_get_ne (width height : Nat) (weightFunc : Coord → Coord → ℚ)
    (sel : Coord → List Coord) (img : List ℚ) (u c : Coord)
    (hu : inGrid width height u) (hc : inGrid width height c) (hne : u ≠ c) :
    getPixel (fillStep width weightFunc sel img u) c.x c.y width =
      getPixel img c.x c.y width := by
  unfold fillStep
  exact getPixel_setPixel_ne img width height u c hu hc hne _

theorem fillFold_frame (width height : Nat) (weightFunc : Coord → Coord → ℚ)
    (sel : Coord → List Coord) :
    ∀ (holes : List Coord) (img : List ℚ),
      (∀ z ∈ holes, inGrid width height z) →
      ∀ c, inGrid width height c → c ∉ holes →
        getPixel (fillFold width weightFunc sel holes img) c.x c.y width =
          getPixel img c.x c.y width := by
  intro holes
  induction holes with
  | nil => intro img _ c _ _; rfl
  | cons u t ih =>
    intro img hin c hc hnotin
    have hne : u ≠ c := fun h => hnotin (h ▸ List.mem_cons_self u t)
    have hct : c ∉ t := fun h => hnotin (List.mem_cons_of_mem u h)
    show getPixel (fillFold width weightFunc sel t
      (fillStep width weightFunc sel img u)) c.x c.y width = _
    rw [ih (fillStep width weightFunc sel img u)
      (fun z hz => hin z (List.mem_cons_of_mem u hz)) c hc hct]
    exact fillStep_get_ne width height weightFunc sel img u c
      (hin u (List.mem_cons_self u t)) hc hne

theorem fillFold_value (width height : Nat) (weightFunc : Coord → Coord → ℚ)
    (sel : Coord → List Coord) :
    ∀ (holes : List Coord) (img : List ℚ),
      img.length = width * height →
      (∀ z ∈ holes, inGrid width height z) →
      holes.Nodup →
      (∀ u : Coord, ∀ v ∈ sel u, inGrid width height v ∧ v ∉ holes) →
      ∀ u ∈ holes,
        getPixel (fillFold width weightFunc sel holes img) u.x u.y width =
          if eps < weightSum weightFunc u (sel u) then
            weightedValueSum img width weightFunc u (sel u) /
              weightSum weightFunc u (sel u)
          else 0 := by
  intro holes
  induction holes with
  | nil => intro img _ _ _ _ u hu; cases hu
  | cons w t ih =>
    intro img hlen hin hnd hsel u hu
    have hwin : inGrid width height w := hin w (List.mem_cons_self w t)
    have hstep_len : (fillStep width weightFunc sel img w).length = width * height := by
      rw [fillStep_length]; exact hlen
    have hpres : ∀ u' : Coord, ∀ v ∈ sel u',
        getPixel (fillStep width weightFunc sel img w) v.x v.y width =
          getPixel img v.x v.y width := by
      intro u' v hv
      obtain ⟨hvin, hvnot⟩ := hsel u' v hv
      exact fillStep_get_ne width height weightFunc sel img w v hwin hvin
        (fun h => hvnot (h ▸ List.mem_cons_self w t))
    rcases List.mem_cons.mp hu with rfl | hut
    · have hnotin : u ∉ t := (List.nodup_cons.mp hnd).1
      show getPixel (fillFold width weightFunc sel t
        (fillStep width weightFunc sel img u)) u.x u.y width = _
      rw [fillFold_frame width height weightFunc sel t _
        (fun z hz => hin z (List.mem_cons_of_mem u hz)) u hwin hnotin]
      rw [fillStep_get_eq width height weightFunc sel img u hlen hwin]
    · show getPixel (fillFold width weightFunc sel t
        (fillStep width weightFunc sel img w)) u.x u.y width = _
      rw [ih (fillStep width weightFunc sel img w) hstep_len
        (fun z hz => hin z (List.mem_cons_of_mem w hz))
        (List.nodup_cons.mp hnd).2
        (fun u' v hv => ⟨(hsel u' v hv).1,
          fun h => (hsel u' v hv).2 (List.mem_cons_of_mem w h)⟩)
        u hut]
      rw [weightedValueSum_congr _ img width weightFunc u (sel u) (hpres u)]

/-- Loop state of `fillApproximate`: the buffer and the hole mask, the mask
represented by the list of coordinates whose `isHole` bit is still true. -/
structure AState where
  image : List ℚ
  isHole : List Coord

/-- The 8-connected neighbours of `u` that are in bounds, not marked as holes,
and have non-negative intensity: the neighbours averaged by `fillApproximate`
(and, at seeding time, the neighbours that make a hole pixel a seed). -/
def qualifyingNeighbors (width height : Nat) (s : AState) (u : Coord) : List Coord :=
  offsets8.filterMap (fun off =>
    if (0 ≤ u.x + off.x ∧ u.x + off.x < (width : Int) ∧
        0 ≤ u.y + off.y ∧ u.y + off.y < (height : Int)) ∧
        Coord.mk (u.x + off.x) (u.y + off.y) ∉ s.isHole ∧
        0 ≤ getPixel s.image (u.x + off.x) (u.y + off.y) width then
      some ⟨u.x + off.x, u.y + off.y⟩ else none)

/-- The 8-connected neighbours of `u` that are in bounds and still marked as
holes: the coordinates `fillApproximate` re-pushes after filling `u`. -/
def holeNeighbors (width height : Nat) (isHole : List Coord) (u : Coord) : List Coord :=
  offsets8.filterMap (fun off =>
    if (0 ≤ u.x + off.x ∧ u.x + off.x < (width : Int) ∧
        0 ≤ u.y + off.y ∧ u.y + off.y < (height : Int)) ∧
        Coord.mk (u.x + off.x) (u.y + off.y) ∈ isHole then
      some ⟨u.x + off.x, u.y + off.y⟩ else none)

theorem holeNeighbors_length_le (width height : Nat) (isHole : List Coord) (u : Coord) :
    (holeNeighbors width height isHole u).length ≤ 8 := by
  have h := List.length_filterMap_le (fun off =>
    if (0 ≤ u.x + off.x ∧ u.x + off.x < (width : Int) ∧
        0 ≤ u.y + off.y ∧ u.y + off.y < (height : Int)) ∧
        Coord.mk (u.x + off.x) (u.y + off.y) ∈ isHole then
      some (Coord.mk (u.x + off.x) (u.y + off.y)) else none) offsets8
  simpa [holeNeighbors] using h

/-- The queue-processing loop of `fillApproximate`.  Each step pops the front
coordinate; a coordinate no longer marked as a hole is discarded; otherwise
the average of its qualifying neighbours is written when at least one exists,
the mask bit is cleared, and the still-masked neighbours are pushed.  The
second component counts the number of pops performed. -/
def processLoop (width height : Nat) : List Coord → AState → AState × Nat
  | [], s => (s, 0)
  | u :: q, s =>
    if u ∈ s.isHole then
      if 0 < (qualifyingNeighbors width height s u).length then
        let vals := (qualifyingNeighbors width height s u).map
          (fun v => getPixel s.image v.x v.y width)
        let s' : AState := ⟨setPixel s.image u.x u.y width
          (vals.sum / ((qualifyingNeighbors width height s u).length : ℚ)),
          s.isHole.erase u⟩
        let r := processLoop width height
          (q ++ holeNeighbors width height s'.isHole u) s'
        (r.1, r.2 + 1)
      else
        let r := processLoop width height q s
        (r.1, r.2 + 1)
    else
      let r := processLoop width height q s
      (r.1, r.2 + 1)
termination_by q s => 9 * s.isHole.length + q.length
decreasing_by
  · rename_i hu _
    have h1 : (s.isHole.erase u).length = s.isHole.length - 1 :=
      List.length_erase_of_mem hu
    have h2 : (holeNeighbors width height (s.isHole.erase u) u).length ≤ 8 :=
      holeNeighbors_length_le width height (s.isHole.erase u) u
    have h3 : 0 < s.isHole.length := List.length_pos_of_mem hu
    simp only [List.length_append, List.length_cons]
    omega
  · simp only [List.length_cons]
    omega
  · simp only [List.length_cons]
    omega

/-- The first pass of `fillApproximate`: every hole pixel with at least one
in-bounds neighbour that is not a hole and has non-negative intensity is
pushed onto the queue, in hole-detection order. -/
def seedQueue (image : List ℚ) (width height : Nat) : List Coord :=
  (findHolePixels image width height).filter
    (fun p => !(qualifyingNeighbors width height
      ⟨image, findHolePixels image width height⟩ p).isEmpty)

/-- `fillApproximate`: the propagating (boundary-inward) filler. -/
def fillApproximate (image : List ℚ) (width height : Nat) : List ℚ :=
  (processLoop width height (seedQueue image width height)
    ⟨image, findHolePixels image width height⟩).1.image

/-- Centroid and squared search radius of a hole, from `calculateHoleInfo`.
The source stores `radius = std::sqrt(maxDistSq) * 1.5f` and the filler then
squares it for the query (`search_radius_sq = radius * radius`); in exact
arithmetic that squared search radius is `maxDistSq * (3/2)² = maxDistSq * 9/4`,
which is the value recorded here (an exact square root does not exist in ℚ). -/
structure HoleInfo where
  centerX : ℚ
  centerY : ℚ
  radiusSq : ℚ

/-- `calculateHoleInfo`: centroid of the hole pixels (sum of coordinates
divided by the count) and the maximum squared centroid-to-hole distance,
scaled by the source's 1.5 safety margin (squared: 9/4). -/
def calculateHoleInfo (holePixels : List Coord) : HoleInfo :=
  let centerX := (holePixels.foldl (fun a p => a + (p.x : ℚ)) 0) /
    (holePixels.length : ℚ)
  let centerY := (holePixels.foldl (fun a p => a + (p.y : ℚ)) 0) /
    (holePixels.length : ℚ)
  let maxDistSq := holePixels.foldl (fun m p =>
    max m (((p.x : ℚ) - centerX) * ((p.x : ℚ) - centerX) +
           ((p.y : ℚ) - centerY) * ((p.y : ℚ) - centerY))) 0
  ⟨centerX, centerY, maxDistSq * (9 / 4)⟩

/-- Squared distance of a hole pixel from the centroid, as computed inside
`calculateHoleInfo` (`dx*dx + dy*dy`). -/
def centroidDistSq (info : HoleInfo) (p : Coord) : ℚ :=
  ((p.x : ℚ) - info.centerX) * ((p.x : ℚ) - info.centerX) +
  ((p.y : ℚ) - info.centerY) * ((p.y : ℚ) - info.centerY)

/-- Squared Euclidean distance between two coordinates, the `L2_Simple`
metric of the spatial index. -/
def distSq (u v : Coord) : ℚ :=
  ((u.x : ℚ) - (v.x : ℚ)) * ((u.x : ℚ) - (v.x : ℚ)) +
  ((u.y : ℚ) - (v.y : ℚ)) * ((u.y : ℚ) - (v.y : ℚ))

/-- Modelled from the spec: the radius query of the external spatial index
(the `nanoflann` k-d tree, which is a third-party header and not part of this
repository's sources).  Per the spec the index "supports radius ... queries
returning matched coordinates": the query returns exactly the indexed
boundary points whose squared distance from the query point is within the
given squared radius. -/
def radiusSearch (points : List Coord) (u : Coord) (radiusSq : ℚ) : List Coord :=
  points.filter (fun v => decide (distSq u v ≤ radiusSq))

/-- `fillExactWithSearch`: the spatial-index filler.  Builds the index over
the boundary pixels, queries each hole pixel with the squared search radius
from `calculateHoleInfo`, and applies the same weighted-average/fallback
formula as `fill` over the matches. -/
def fillExactWithSearch (image : List ℚ) (width height : Nat)
    (weightFunc : Coord → Coord → ℚ) : List ℚ :=
  let holePixels := findHolePixels image width height
  let boundaryPixels := findBoundaryPixels image width height holePixels true
  let holeInfo := calculateHoleInfo holePixels
  holePixels.foldl (fun img u =>
    let acc := (radiusSearch boundaryPixels u holeInfo.radiusSq).foldl (fun nd v =>
      (nd.1 + weightFunc u v * getPixel img v.x v.y width,
       nd.2 + weightFunc u v)) ((0 : ℚ), (0 : ℚ))
    setPixel img u.x u.y width (if eps < acc.2 then acc.1 / acc.2 else 0)) image

theorem fillExactWithSearch_eq_fillFold (image : List ℚ) (width height : Nat)
    (weightFunc : Coord → Coord → ℚ) :
    fillExactWithSearch image width height weightFunc =
      fillFold width weightFunc
        (fun u => radiusSearch
          (findBoundaryPixels image width height (findHolePixels image width height) true)
          u (calculateHoleInfo (findHolePixels image width height)).radiusSq)
        (findHolePixels image width height) image := rfl

/-- Claim C1: for every buffer with at least one hole pixel and every weight
function, `fill` writes at each hole coordinate `u` the value
`(Σ_v w(u,v)·value(v)) / (Σ_v w(u,v))`, summed over every boundary coordinate
`v` in boundary-discovery order with `value(v)` read from the pre-fill buffer,
whenever the denominator exceeds `eps`, and the fallback `0` otherwise. -/
theorem fill_writes_weighted_average (image : List ℚ) (width height : Nat)
    (weightFunc : Coord → Coord → ℚ)
    (hlen : image.length = width * height)
    (_hne : findHolePixels image width height ≠ []) :
    ∀ u ∈ findHolePixels image width height,
      getPixel (fill image width height weightFunc) u.x u.y width =
        if eps < weightSum weightFunc u
            (findBoundaryPixels image width height
              (findHolePixels image width height) true) then
          weightedValueSum image width weightFunc u
            (findBoundaryPixels image width height
              (findHolePixels image width height) true) /
            weightSum weightFunc u
              (findBoundaryPixels image width height
                (findHolePixels image width height) true)
        else 0 := by
  intro u hu
  rw [fill_eq_fillFold]
  exact fillFold_value width height weightFunc _
    (findHolePixels image width height) image hlen
    (fun z hz => ((findHolePixels_mem image width height z).mp hz).1)
    (findHolePixels_nodup image width height)
    (fun u' v hv =>
      ⟨((findBoundaryPixels_mem image width height _ true v).mp hv).1,
       ((findBoundaryPixels_mem image width height _ true v).mp hv).2.1⟩)
    u hu

theorem fill_writes_weighted_average_witness :
    getPixel (fill [(-1 : ℚ), 2] 2 1 (fun _ _ => 1)) 0 0 2 = 2 := by
  have h := fill_writes_weighted_average [(-1 : ℚ), 2] 2 1 (fun _ _ => 1)
    (by decide) (by decide) ⟨0, 0⟩ (by decide)
  have hB : findBoundaryPixels [(-1 : ℚ), 2] 2 1
      (findHolePixels [(-1 : ℚ), 2] 2 1) true = [⟨1, 0⟩] := by decide
  rw [h, hB]
  simp only [weightSum, weightedValueSum, List.foldl_cons, List.foldl_nil, getPixel]
  norm_num [eps, List.getD]

/-- Claim C4: `findBoundaryPixels` returns exactly the coordinates that are
in-bounds, not themselves holes, have intensity ≥ 0, and are 4- or 8-connected
(per the connectivity flag) to at least one hole coordinate; duplicates are
removed, the list is in first-discovery order (it equals the first-occurrence
deduplication of the discovery stream), and the result is disjoint from the
hole set. -/
theorem findBoundaryPixels_characterisation (image : List ℚ) (width height : Nat)
    (holePixels : List Coord) (use8Connectivity : Bool) :
    (∀ b, b ∈ findBoundaryPixels image width height holePixels use8Connectivity ↔
      inGrid width height b ∧ b ∉ holePixels ∧
        0 ≤ getPixel image b.x b.y width ∧
        ∃ p ∈ holePixels, ∃ off ∈ offsets use8Connectivity,
          b = ⟨p.x + off.x, p.y + off.y⟩) ∧
    (findBoundaryPixels image width height holePixels use8Connectivity).Nodup ∧
    findBoundaryPixels image width height holePixels use8Connectivity =
      dedupFirst (boundaryCandidates image width height holePixels use8Connectivity) ∧
    (∀ b ∈ findBoundaryPixels image width height holePixels use8Connectivity,
      b ∉ holePixels) := by
  refine ⟨fun b => findBoundaryPixels_mem image width height holePixels use8Connectivity b,
    findBoundaryPixels_nodup image width height holePixels use8Connectivity,
    findBoundaryPixels_eq_dedup image width height holePixels use8Connectivity,
    fun b hb => ((findBoundaryPixels_mem image width height holePixels
      use8Connectivity b).mp hb).2.1⟩

theorem foldl_max_bounds (f : Coord → ℚ) (l : List Coord) :
    ∀ m : ℚ, m ≤ l.foldl (fun m p => max m (f p)) m ∧
      ∀ p ∈ l, f p ≤ l.foldl (fun m p => max m (f p)) m := by
  induction l with
  | nil => intro m; exact ⟨le_refl m, fun p hp => absurd hp (List.not_mem_nil p)⟩
  | cons p t ih =>
    intro m
    simp only [List.foldl_cons]
    refine ⟨le_trans (le_max_left m (f p)) (ih (max m (f p))).1, ?_⟩
    intro q hq
    rcases List.mem_cons.mp hq with rfl | hqt
    · exact le_trans (le_max_right m (f q)) (ih (max m (f q))).1
    · exact (ih (max m (f p))).2 q hqt

/-- Claim C8: for every non-empty hole-pixel set, the squared search radius
derived by `calculateHoleInfo` is at least the squared Euclidean distance
from the hole centroid to any hole pixel (equivalently, the search radius is
at least the maximum centroid-to-hole distance, both sides being
non-negative). -/
theorem calculateHoleInfo_radius_sufficient (holePixels : List Coord)
    (_hne : holePixels ≠ []) :
    ∀ p ∈ holePixels,
      centroidDistSq (calculateHoleInfo holePixels) p ≤
        (calculateHoleInfo holePixels).radiusSq := by
  intro p hp
  unfold calculateHoleInfo centroidDistSq
  simp only
  set cx := (holePixels.foldl (fun a p => a + (p.x : ℚ)) 0) /
    (holePixels.length : ℚ) with hcx
  set cy := (holePixels.foldl (fun a p => a + (p.y : ℚ)) 0) /
    (holePixels.length : ℚ) with hcy
  set f := fun q : Coord =>
    ((q.x : ℚ) - cx) * ((q.x : ℚ) - cx) + ((q.y : ℚ) - cy) * ((q.y : ℚ) - cy)
    with hf
  have h1 : f p ≤ holePixels.foldl (fun m q => max m (f q)) 0 :=
    (foldl_max_bounds f holePixels 0).2 p hp
  have h2 : (0 : ℚ) ≤ holePixels.foldl (fun m q => max m (f q)) 0 :=
    (foldl_max_bounds f holePixels 0).1
  have h3 : f p = ((p.x : ℚ) - cx) * ((p.x : ℚ) - cx) +
      ((p.y : ℚ) - cy) * ((p.y : ℚ) - cy) := rfl
  rw [← h3]
  nlinarith [h1, h2]

theorem calculateHoleInfo_radius_sufficient_witness :
    centroidDistSq (calculateHoleInfo [⟨0, 0⟩, ⟨4, 0⟩, ⟨10, 3⟩]) ⟨10, 3⟩ ≤
      (calculateHoleInfo [⟨0, 0⟩, ⟨4, 0⟩, ⟨10, 3⟩]).radiusSq :=
  calculateHoleInfo_radius_sufficient [⟨0, 0⟩, ⟨4, 0⟩, ⟨10, 3⟩] (by decide)
    ⟨10, 3⟩ (by decide)

theorem processLoop_nil (width height : Nat) (s : AState) :
    processLoop width height [] s = (s, 0) := by
  simp [processLoop]

theorem findHolePixels_empty_of_nonneg (image : List ℚ) (width height : Nat)
    (hlen : image.length = width * height)
    (hpos : ∀ i, i < image.length → 0 ≤ image.getD i 0) :
    findHolePixels image width height = [] := by
  rw [List.eq_nil_iff_forall_not_mem]
  intro u hu
  obtain ⟨hin, hneg⟩ := (findHolePixels_mem image width height u).mp hu
  have hidx : flatIdx width u < image.length := by
    rw [hlen]; exact flatIdx_lt width height u hin
  have := hpos (flatIdx width u) hidx
  unfold getPixel at hneg
  unfold flatIdx at this
  linarith

/-- Claim C10: on a buffer with no negative pixel the hole set is empty and
all three fillers (`fill`, `fillApproximate`, `fillExactWithSearch`) return
the buffer unchanged; in particular the division by the zero hole count in
`fillExactWithSearch`'s centroid computation is never used in a write. -/
theorem fillers_identity_on_hole_free_image (image : List ℚ) (width height : Nat)
    (weightFunc : Coord → Coord → ℚ)
    (hlen : image.length = width * height)
    (hpos : ∀ i, i < image.length → 0 ≤ image.getD i 0) :
    findHolePixels image width height = [] ∧
    fill image width height weightFunc = image ∧
    fillApproximate image width height = image ∧
    fillExactWithSearch image width height weightFunc = image := by
  have hempty : findHolePixels image width height = [] :=
    findHolePixels_empty_of_nonneg image width height hlen hpos
  refine ⟨hempty, ?_, ?_, ?_⟩
  · rw [fill_eq_fillFold, hempty]
    rfl
  · unfold fillApproximate seedQueue
    rw [hempty, List.filter_nil, processLoop_nil]
  · rw [fillExactWithSearch_eq_fillFold, hempty]
    rfl

theorem fillers_identity_on_hole_free_image_witness :
    findHolePixels [(1 : ℚ), 2] 2 1 = [] ∧
    fill [(1 : ℚ), 2] 2 1 (fun _ _ => 1) = [(1 : ℚ), 2] ∧
    fillApproximate [(1 : ℚ), 2] 2 1 = [(1 : ℚ), 2] ∧
    fillExactWithSearch [(1 : ℚ), 2] 2 1 (fun _ _ => 1) = [(1 : ℚ), 2] :=
  fillers_identity_on_hole_free_image [(1 : ℚ), 2] 2 1 (fun _ _ => 1)
    (by decide) (by decide)

/-- The buffer-and-mask update performed when the loop fills `u`: the average
of the qualifying neighbours is written and the mask bit of `u` cleared. -/
def fillAState (width height : Nat) (s : AState) (u : Coord) : AState :=
  ⟨setPixel s.image u.x u.y width
    (((qualifyingNeighbors width height s u).map
      (fun v => getPixel s.image v.x v.y width)).sum /
      ((qualifyingNeighbors width height s u).length : ℚ)),
   s.isHole.erase u⟩

theorem processLoop_cons_skip (width height : Nat) (u : Coord) (q : List Coord)
    (s : AState) (hu : u ∉ s.isHole) :
    processLoop width height (u :: q) s =
      ((processLoop width height q s).1, (processLoop width height q s).2 + 1) := by
  rw [processLoop.eq_def]
  simp only [if_neg hu]

theorem processLoop_cons_drop (width height : Nat) (u : Coord) (q : List Coord)
    (s : AState) (hu : u ∈ s.isHole)
    (hc : ¬ 0 < (qualifyingNeighbors width height s u).length) :
    processLoop width height (u :: q) s =
      ((processLoop width height q s).1, (processLoop width height q s).2 + 1) := by
  rw [processLoop.eq_def]
  simp only [if_pos hu, if_neg hc]

theorem processLoop_cons_fill (width height : Nat) (u : Coord) (q : List Coord)
    (s : AState) (hu : u ∈ s.isHole)
    (hc : 0 < (qualifyingNeighbors width height s u).length) :
    processLoop width height (u :: q) s =
      ((processLoop width height
          (q ++ holeNeighbors width height (s.isHole.erase u) u)
          (fillAState width height s u)).1,
       (processLoop width height
          (q ++ holeNeighbors width height (s.isHole.erase u) u)
          (fillAState width height s u)).2 + 1) := by
  rw [processLoop.eq_def]
  simp only [if_pos hu, if_pos hc]
  rfl

theorem processLoop_isHole_subset (width height : Nat) :
    ∀ (q : List Coord) (s : AState),
      (processLoop width height q s).1.isHole ⊆ s.isHole := by
  intro q s
  induction q, s using processLoop.induct width height with
  | case1 s =>
    rw [processLoop_nil]
    exact fun c hc => hc
  | case2 u q s hu hc =>
    rename_i ih
    rw [processLoop_cons_fill width height u q s hu hc]
    exact fun c hc' => List.mem_of_mem_erase (ih hc')
  | case3 u q s hu hc ih =>
    rw [processLoop_cons_drop width height u q s hu hc]
    exact ih
  | case4 u q s hu ih =>
    rw [processLoop_cons_skip width height u q s hu]
    exact ih

theorem processLoop_image_length (width height : Nat) :
    ∀ (q : List Coord) (s : AState),
      (processLoop width height q s).1.image.length = s.image.length := by
  intro q s
  induction q, s using processLoop.induct width height with
  | case1 s => rw [processLoop_nil]
  | case2 u q s hu hc =>
    rename_i ih
    rw [processLoop_cons_fill width height u q s hu hc]
    exact ih.trans (setPixel_length s.image u.x u.y width _)
  | case3 u q s hu hc ih =>
    rw [processLoop_cons_drop width height u q s hu hc]
    exact ih
  | case4 u q s hu ih =>
    rw [processLoop_cons_skip width height u q s hu]
    exact ih

theorem processLoop_isHole_nodup (width height : Nat) :
    ∀ (q : List Coord) (s : AState), s.isHole.Nodup →
      (processLoop width height q s).1.isHole.Nodup := by
  intro q s
  induction q, s using processLoop.induct width height with
  | case1 s =>
    intro h
    rw [processLoop_nil]
    exact h
  | case2 u q s hu hc =>
    rename_i ih
    intro h
    rw [processLoop_cons_fill width height u q s hu hc]
    exact ih (h.erase u)
  | case3 u q s hu hc ih =>
    intro h
    rw [processLoop_cons_drop width height u q s hu hc]
    exact ih h
  | case4 u q s hu ih =>
    intro h
    rw [processLoop_cons_skip width height u q s hu]
    exact ih h

/-- Claim C6 core bound: each pop consumes one unit of the measure
`9·|mask| + |queue|`, so the loop performs at most that many pops. -/
theorem processLoop_pops_le (width height : Nat) :
    ∀ (q : List Coord) (s : AState),
      (processLoop width height q s).2 ≤ 9 * s.isHole.length + q.length := by
  intro q s
  induction q, s using processLoop.induct width height with
  | case1 s =>
    rw [processLoop_nil]
    simp
  | case2 u q s hu hc =>
    rename_i ih
    rw [processLoop_cons_fill width height u q s hu hc]
    have h1 : (s.isHole.erase u).length = s.isHole.length - 1 :=
      List.length_erase_of_mem hu
    have h2 : (holeNeighbors width height (s.isHole.erase u) u).length ≤ 8 :=
      holeNeighbors_length_le width height (s.isHole.erase u) u
    have h3 : 0 < s.isHole.length := List.length_pos_of_mem hu
    have h4 : (processLoop width height
        (q ++ holeNeighbors width height (s.isHole.erase u) u)
        (fillAState width height s u)).2 ≤
        9 * (s.isHole.erase u).length +
          (q ++ holeNeighbors width height (s.isHole.erase u) u).length := ih
    show (processLoop width height
        (q ++ holeNeighbors width height (s.isHole.erase u) u)
        (fillAState width height s u)).2 + 1 ≤
      9 * s.isHole.length + (u :: q).length
    simp only [List.length_append, List.length_cons] at h4 ⊢
    omega
  | case3 u q s hu hc ih =>
    rw [processLoop_cons_drop width height u q s hu hc]
    show (processLoop width height q s).2 + 1 ≤ 9 * s.isHole.length + (u :: q).length
    simp only [List.length_cons]
    omega
  | case4 u q s hu ih =>
    rw [processLoop_cons_skip width height u q s hu]
    show (processLoop width height q s).2 + 1 ≤ 9 * s.isHole.length + (u :: q).length
    simp only [List.length_cons]
    omega

theorem qualifyingNeighbors_mem (width height : Nat) (s : AState) (u n : Coord) :
    n ∈ qualifyingNeighbors width height s u ↔
      (∃ off ∈ offsets8, n = ⟨u.x + off.x, u.y + off.y⟩) ∧
        inGrid width height n ∧ n ∉ s.isHole ∧
        0 ≤ getPixel s.image n.x n.y width := by
  unfold qualifyingNeighbors inGrid
  simp only [List.mem_filterMap]
  constructor
  · rintro ⟨off, hoff, hcond⟩
    split at hcond
    · rename_i hcnd
      cases hcond
      obtain ⟨⟨h1, h2, h3, h4⟩, h5, h6⟩ := hcnd
      exact ⟨⟨off, hoff, rfl⟩, ⟨h1, h2, h3, h4⟩, h5, h6⟩
    · cases hcond
  · rintro ⟨⟨off, hoff, rfl⟩, hin, h5, h6⟩
    exact ⟨off, hoff, by rw [if_pos ⟨⟨hin.1, hin.2.1, hin.2.2.1, hin.2.2.2⟩, h5, h6⟩]⟩

theorem holeNeighbors_mem (width height : Nat) (isHole : List Coord) (u n : Coord) :
    n ∈ holeNeighbors width height isHole u ↔
      (∃ off ∈ offsets8, n = ⟨u.x + off.x, u.y + off.y⟩) ∧
        inGrid width height n ∧ n ∈ isHole := by
  unfold holeNeighbors inGrid
  simp only [List.mem_filterMap]
  constructor
  · rintro ⟨off, hoff, hcond⟩
    split at hcond
    · rename_i hcnd
      cases hcond
      obtain ⟨⟨h1, h2, h3, h4⟩, h5⟩ := hcnd
      exact ⟨⟨off, hoff, rfl⟩, ⟨h1, h2, h3, h4⟩, h5⟩
    · cases hcond
  · rintro ⟨⟨off, hoff, rfl⟩, hin, h5⟩
    exact ⟨off, hoff, by rw [if_pos ⟨⟨hin.1, hin.2.1, hin.2.2.1, hin.2.2.2⟩, h5⟩]⟩

theorem processLoop_frame (width height : Nat) :
    ∀ (q : List Coord) (s : AState),
      (∀ z ∈ s.isHole, inGrid width height z) →
      ∀ c, inGrid width height c → c ∉ s.isHole →
        getPixel (processLoop width height q s).1.image c.x c.y width =
          getPixel s.image c.x c.y width := by
  intro q s
  induction q, s using processLoop.induct width height with
  | case1 s =>
    intro _ c _ _
    rw [processLoop_nil]
  | case2 u q s hu hc =>
    rename_i ih
    intro hin c hcg hcnot
    rw [processLoop_cons_fill width height u q s hu hc]
    have hin' : ∀ z ∈ s.isHole.erase u, inGrid width height z :=
      fun z hz => hin z (List.mem_of_mem_erase hz)
    have hce : c ∉ s.isHole.erase u :=
      fun h => hcnot (List.mem_of_mem_erase h)
    have hne : u ≠ c := fun h => hcnot (h ▸ hu)
    exact (ih hin' c hcg hce).trans
      (getPixel_setPixel_ne s.image width height u c (hin u hu) hcg hne _)
  | case3 u q s hu hc ih =>
    intro hin c hcg hcnot
    rw [processLoop_cons_drop width height u q s hu hc]
    exact ih hin c hcg hcnot
  | case4 u q s hu ih =>
    intro hin c hcg hcnot
    rw [processLoop_cons_skip width height u q s hu]
    exact ih hin c hcg hcnot

/-- Claim C6: for every input buffer, the queue-processing loop of
`fillApproximate` performs only finitely many pops: the pop count is bounded
by `10·h` where `h` is the number of hole pixels (duplicates are discarded at
pop time, each coordinate is filled at most once, and each fill pushes at
most 8 neighbours, so the measure `9·|mask| + |queue|` decreases at every
pop). -/
theorem fillApproximate_pops_finite (image : List ℚ) (width height : Nat) :
    (processLoop width height (seedQueue image width height)
        ⟨image, findHolePixels image width height⟩).2 ≤
      10 * (findHolePixels image width height).length := by
  have h := processLoop_pops_le width height (seedQueue image width height)
    ⟨image, findHolePixels image width height⟩
  have h2 : (seedQueue image width height).length ≤
      (findHolePixels image width height).length := by
    unfold seedQueue
    exact List.length_filter_le _ _
  simp only at h
  omega

/-- Claim C3: every pixel whose value is non-negative before a fill call has
exactly the same value after the call, for each of the three fillers. -/
theorem fillers_preserve_valid_pixels (image : List ℚ) (width height : Nat)
    (weightFunc : Coord → Coord → ℚ) :
    ∀ c : Coord, inGrid width height c → 0 ≤ getPixel image c.x c.y width →
      getPixel (fill image width height weightFunc) c.x c.y width =
        getPixel image c.x c.y width ∧
      getPixel (fillApproximate image width height) c.x c.y width =
        getPixel image c.x c.y width ∧
      getPixel (fillExactWithSearch image width height weightFunc) c.x c.y width =
        getPixel image c.x c.y width := by
  intro c hcg hcpos
  have hcnot : c ∉ findHolePixels image width height := by
    intro h
    have := ((findHolePixels_mem image width height c).mp h).2
    linarith
  have hin : ∀ z ∈ findHolePixels image width height, inGrid width height z :=
    fun z hz => ((findHolePixels_mem image width height z).mp hz).1
  refine ⟨?_, ?_, ?_⟩
  · rw [fill_eq_fillFold]
    exact fillFold_frame width height weightFunc _
      (findHolePixels image width height) image hin c hcg hcnot
  · unfold fillApproximate
    exact processLoop_frame width height (seedQueue image width height)
      ⟨image, findHolePixels image width height⟩ hin c hcg hcnot
  · rw [fillExactWithSearch_eq_fillFold]
    exact fillFold_frame width height weightFunc _
      (findHolePixels image width height) image hin c hcg hcnot

theorem fillers_preserve_valid_pixels_witness :
    getPixel (fill [(-1 : ℚ), 3] 2 1 (fun _ _ => 1)) 1 0 2 =
      getPixel [(-1 : ℚ), 3] 1 0 2 ∧
    getPixel (fillApproximate [(-1 : ℚ), 3] 2 1) 1 0 2 =
      getPixel [(-1 : ℚ), 3] 1 0 2 ∧
    getPixel (fillExactWithSearch [(-1 : ℚ), 3] 2 1 (fun _ _ => 1)) 1 0 2 =
      getPixel [(-1 : ℚ), 3] 1 0 2 :=
  fillers_preserve_valid_pixels [(-1 : ℚ), 3] 2 1 (fun _ _ => 1)
    ⟨1, 0⟩ (by decide) (by decide)

theorem list_mean_le (vs : List ℚ) (hne : vs ≠ []) (hi : ℚ) (h : ∀ v ∈ vs, v ≤ hi) :
    vs.sum / (vs.length : ℚ) ≤ hi := by
  have hpos : (0 : ℚ) < (vs.length : ℚ) := by
    have := List.length_pos_of_ne_nil hne
    exact_mod_cast this
  rw [div_le_iff₀ hpos]
  have := List.sum_le_card_nsmul vs hi h
  simpa [nsmul_eq_mul, mul_comm] using this

theorem le_list_mean (vs : List ℚ) (hne : vs ≠ []) (lo : ℚ) (h : ∀ v ∈ vs, lo ≤ v) :
    lo ≤ vs.sum / (vs.length : ℚ) := by
  have hpos : (0 : ℚ) < (vs.length : ℚ) := by
    have := List.length_pos_of_ne_nil hne
    exact_mod_cast this
  rw [le_div_iff₀ hpos]
  have := List.card_nsmul_le_sum vs lo h
  simpa [nsmul_eq_mul, mul_comm] using this

theorem qualifyingNeighbors_length_le (width height : Nat) (s : AState) (u : Coord) :
    (qualifyingNeighbors width height s u).length ≤ 8 := by
  have h := List.length_filterMap_le (fun off : Coord =>
    if (0 ≤ u.x + off.x ∧ u.x + off.x < (width : Int) ∧
        0 ≤ u.y + off.y ∧ u.y + off.y < (height : Int)) ∧
        Coord.mk (u.x + off.x) (u.y + off.y) ∉ s.isHole ∧
        0 ≤ getPixel s.image (u.x + off.x) (u.y + off.y) width then
      some (Coord.mk (u.x + off.x) (u.y + off.y)) else none) offsets8
  simpa [qualifyingNeighbors] using h

theorem processLoop_written (width height : Nat) :
    ∀ (q : List Coord) (s : AState),
      s.image.length = width * height →
      (∀ z ∈ s.isHole, inGrid width height z) →
      ∀ c : Coord, inGrid width height c →
        getPixel (processLoop width height q s).1.image c.x c.y width ≠
          getPixel s.image c.x c.y width →
        ∃ vs : List ℚ, vs ≠ [] ∧ vs.length ≤ 8 ∧ (∀ v ∈ vs, 0 ≤ v) ∧
          getPixel (processLoop width height q s).1.image c.x c.y width =
            vs.sum / (vs.length : ℚ) := by
  intro q s
  induction q, s using processLoop.induct width height with
  | case1 s =>
    intro _ _ c _ hch
    rw [processLoop_nil] at hch ⊢
    exact absurd rfl hch
  | case2 u q s hu hc =>
    rename_i ih
    intro hlen hin c hcg hch
    rw [processLoop_cons_fill width height u q s hu hc] at hch ⊢
    have hulen : (fillAState width height s u).image.length = width * height := by
      show (setPixel s.image u.x u.y width _).length = width * height
      rw [setPixel_length]; exact hlen
    have hin' : ∀ z ∈ (fillAState width height s u).isHole, inGrid width height z :=
      fun z hz => hin z (List.mem_of_mem_erase hz)
    by_cases hchange : getPixel (processLoop width height
        (q ++ holeNeighbors width height (s.isHole.erase u) u)
        (fillAState width height s u)).1.image c.x c.y width =
      getPixel (fillAState width height s u).image c.x c.y width
    · -- the final value at c is the one written by this fill step
      have hcu : c = u := by
        by_contra hne
        apply hch
        rw [hchange]
        show getPixel (setPixel s.image u.x u.y width _) c.x c.y width = _
        exact getPixel_setPixel_ne s.image width height u c (hin u hu) hcg
          (fun h => hne h.symm) _
      subst hcu
      refine ⟨(qualifyingNeighbors width height s c).map
        (fun v => getPixel s.image v.x v.y width), ?_, ?_, ?_, ?_⟩
      · intro h
        rw [List.map_eq_nil_iff] at h
        rw [h] at hc
        exact absurd hc (by simp)
      · rw [List.length_map]
        exact qualifyingNeighbors_length_le width height s c
      · intro v hv
        rw [List.mem_map] at hv
        obtain ⟨n, hn, rfl⟩ := hv
        exact ((qualifyingNeighbors_mem width height s c n).mp hn).2.2.2
      · rw [hchange, List.length_map]
        show getPixel (setPixel s.image c.x c.y width _) c.x c.y width = _
        rw [getPixel_setPixel_eq s.image width height c hlen hcg]
    · have := ih hulen hin' c hcg hchange
      exact this
  | case3 u q s hu hc ih =>
    intro hlen hin c hcg hch
    rw [processLoop_cons_drop width height u q s hu hc] at hch ⊢
    exact ih hlen hin c hcg hch
  | case4 u q s hu ih =>
    intro hlen hin c hcg hch
    rw [processLoop_cons_skip width height u q s hu] at hch ⊢
    exact ih hlen hin c hcg hch

theorem fillApproximate_example_eval :
    fillApproximate [(-1 : ℚ), 4] 2 1 = [4, 4] := by
  have h1 : findHolePixels [(-1 : ℚ), 4] 2 1 = [⟨0, 0⟩] := by decide
  have h2 : seedQueue [(-1 : ℚ), 4] 2 1 = [⟨0, 0⟩] := by decide
  unfold fillApproximate
  rw [h1, h2]
  rw [processLoop_cons_fill 2 1 ⟨0, 0⟩ [] ⟨[(-1 : ℚ), 4], [⟨0, 0⟩]⟩ (by decide) (by decide)]
  have h3 : holeNeighbors 2 1 (([⟨0, 0⟩] : List Coord).erase ⟨0, 0⟩) ⟨0, 0⟩ = [] := by decide
  rw [h3]
  rw [List.append_nil]
  rw [processLoop_nil]
  show (fillAState 2 1 ⟨[(-1 : ℚ), 4], [⟨0, 0⟩]⟩ ⟨0, 0⟩).image = [4, 4]
  unfold fillAState
  have h4 : qualifyingNeighbors 2 1 ⟨[(-1 : ℚ), 4], [⟨0, 0⟩]⟩ ⟨0, 0⟩ = [⟨1, 0⟩] := by decide
  rw [h4]
  show setPixel [(-1 : ℚ), 4] 0 0 2 (([getPixel [(-1 : ℚ), 4] 1 0 2]).sum / (1 : ℚ)) = [4, 4]
  have h5 : getPixel [(-1 : ℚ), 4] 1 0 2 = 4 := rfl
  rw [h5]
  norm_num
  rfl


/-- Claim C9: every value the propagating filler writes into a hole pixel is
written by the fill branch of its loop — the three equations below are a
complete case analysis of a pop: a no-longer-masked pixel is discarded and a
masked pixel with no qualifying neighbour is dropped, neither touching the
buffer, while a masked hole pixel `u` with qualifying neighbours is updated
by `fillAState` — and the value `fillAState` writes into `u` is the
arithmetic mean of the actual qualifying-neighbour values of `u` in that
state, a list of one to eight non-negative values, so it lies between every
lower and upper bound of those neighbour values (in particular between their
minimum and maximum) and is non-negative; consequently `fillApproximate`
never leaves a changed pixel negative. -/
theorem fillApproximate_writes_actual_neighbour_means :
    (∀ (width height : Nat) (q : List Coord) (s : AState) (u : Coord),
      (u ∉ s.isHole →
        processLoop width height (u :: q) s =
          ((processLoop width height q s).1,
           (processLoop width height q s).2 + 1)) ∧
      (u ∈ s.isHole → qualifyingNeighbors width height s u = [] →
        processLoop width height (u :: q) s =
          ((processLoop width height q s).1,
           (processLoop width height q s).2 + 1)) ∧
      (u ∈ s.isHole → qualifyingNeighbors width height s u ≠ [] →
        processLoop width height (u :: q) s =
          ((processLoop width height
              (q ++ holeNeighbors width height (s.isHole.erase u) u)
              (fillAState width height s u)).1,
           (processLoop width height
              (q ++ holeNeighbors width height (s.isHole.erase u) u)
              (fillAState width height s u)).2 + 1))) ∧
    (∀ (width height : Nat) (s : AState) (u : Coord),
      s.image.length = width * height →
      u ∈ s.isHole →
      inGrid width height u →
      qualifyingNeighbors width height s u ≠ [] →
      getPixel (fillAState width height s u).image u.x u.y width =
        ((qualifyingNeighbors width height s u).map
          (fun v => getPixel s.image v.x v.y width)).sum /
        (((qualifyingNeighbors width height s u).map
          (fun v => getPixel s.image v.x v.y width)).length : ℚ) ∧
      1 ≤ (qualifyingNeighbors width height s u).length ∧
      (qualifyingNeighbors width height s u).length ≤ 8 ∧
      (∀ x ∈ (qualifyingNeighbors width height s u).map
          (fun v => getPixel s.image v.x v.y width), 0 ≤ x) ∧
      0 ≤ getPixel (fillAState width height s u).image u.x u.y width ∧
      (∀ lo : ℚ, (∀ x ∈ (qualifyingNeighbors width height s u).map
          (fun v => getPixel s.image v.x v.y width), lo ≤ x) →
        lo ≤ getPixel (fillAState width height s u).image u.x u.y width) ∧
      (∀ hi : ℚ, (∀ x ∈ (qualifyingNeighbors width height s u).map
          (fun v => getPixel s.image v.x v.y width), x ≤ hi) →
        getPixel (fillAState width height s u).image u.x u.y width ≤ hi)) ∧
    (∀ (image : List ℚ) (width height : Nat),
      image.length = width * height →
      ∀ c : Coord, inGrid width height c →
        getPixel (fillApproximate image width height) c.x c.y width ≠
          getPixel image c.x c.y width →
        0 ≤ getPixel (fillApproximate image width height) c.x c.y width) := by
  refine ⟨?_, ?_, ?_⟩
  · intro width height q s u
    refine ⟨fun hu => processLoop_cons_skip width height u q s hu,
      fun hu hqe => processLoop_cons_drop width height u q s hu (by simp [hqe]),
      fun hu hqn => processLoop_cons_fill width height u q s hu
        (List.length_pos_of_ne_nil hqn)⟩
  · intro width height s u hlen hu hg hqn
    have hwrite : getPixel (fillAState width height s u).image u.x u.y width =
        ((qualifyingNeighbors width height s u).map
          (fun v => getPixel s.image v.x v.y width)).sum /
        ((qualifyingNeighbors width height s u).length : ℚ) := by
      show getPixel (setPixel s.image u.x u.y width _) u.x u.y width = _
      exact getPixel_setPixel_eq s.image width height u hlen hg _
    have hmaplen : ((qualifyingNeighbors width height s u).map
        (fun v => getPixel s.image v.x v.y width)).length =
        (qualifyingNeighbors width height s u).length := by
      rw [List.length_map]
    have hmean : getPixel (fillAState width height s u).image u.x u.y width =
        ((qualifyingNeighbors width height s u).map
          (fun v => getPixel s.image v.x v.y width)).sum /
        (((qualifyingNeighbors width height s u).map
          (fun v => getPixel s.image v.x v.y width)).length : ℚ) := by
      rw [hwrite, hmaplen]
    have hmapne : (qualifyingNeighbors width height s u).map
        (fun v => getPixel s.image v.x v.y width) ≠ [] := by
      intro h
      exact hqn (List.map_eq_nil_iff.mp h)
    have hnonneg : ∀ x ∈ (qualifyingNeighbors width height s u).map
        (fun v => getPixel s.image v.x v.y width), 0 ≤ x := by
      intro x hx
      rw [List.mem_map] at hx
      obtain ⟨n, hn, rfl⟩ := hx
      exact ((qualifyingNeighbors_mem width height s u n).mp hn).2.2.2
    refine ⟨hmean, List.length_pos_of_ne_nil hqn,
      qualifyingNeighbors_length_le width height s u, hnonneg, ?_, ?_, ?_⟩
    · rw [hmean]
      exact le_list_mean _ hmapne 0 hnonneg
    · intro lo hlo
      rw [hmean]
      exact le_list_mean _ hmapne lo hlo
    · intro hi hhi
      rw [hmean]
      exact list_mean_le _ hmapne hi hhi
  · intro image width height hlen c hcg hch
    unfold fillApproximate at hch ⊢
    have hin : ∀ z ∈ findHolePixels image width height, inGrid width height z :=
      fun z hz => ((findHolePixels_mem image width height z).mp hz).1
    obtain ⟨vs, hne, _, hnonneg, hmean⟩ :=
      processLoop_written width height (seedQueue image width height)
        ⟨image, findHolePixels image width height⟩ hlen hin c hcg hch
    rw [hmean]
    exact le_list_mean vs hne 0 hnonneg

theorem fillApproximate_writes_actual_neighbour_means_witness :
    getPixel (fillAState 2 1 ⟨[(-1 : ℚ), 4], [⟨0, 0⟩]⟩ ⟨0, 0⟩).image 0 0 2 =
      ((qualifyingNeighbors 2 1 ⟨[(-1 : ℚ), 4], [⟨0, 0⟩]⟩ ⟨0, 0⟩).map
        (fun v => getPixel [(-1 : ℚ), 4] v.x v.y 2)).sum /
      (((qualifyingNeighbors 2 1 ⟨[(-1 : ℚ), 4], [⟨0, 0⟩]⟩ ⟨0, 0⟩).map
        (fun v => getPixel [(-1 : ℚ), 4] v.x v.y 2)).length : ℚ) ∧
    0 ≤ getPixel (fillAState 2 1 ⟨[(-1 : ℚ), 4], [⟨0, 0⟩]⟩ ⟨0, 0⟩).image 0 0 2 ∧
    0 ≤ getPixel (fillApproximate [(-1 : ℚ), 4] 2 1) 0 0 2 := by
  have h := fillApproximate_writes_actual_neighbour_means.2.1 2 1
    ⟨[(-1 : ℚ), 4], [⟨0, 0⟩]⟩ ⟨0, 0⟩ (by decide) (by decide) (by decide) (by decide)
  exact ⟨h.1, h.2.2.2.2.1,
    fillApproximate_writes_actual_neighbour_means.2.2 [(-1 : ℚ), 4] 2 1
      (by decide) ⟨0, 0⟩ (by decide)
      (by rw [fillApproximate_example_eval]; decide)⟩


theorem getPixel_eq_getD (image : List ℚ) (width : Nat) (c : Coord) :
    getPixel image c.x c.y width = image.getD (flatIdx width c) 0 := rfl

theorem list_sum_const (l : List ℚ) (k : ℚ) (h : ∀ x ∈ l, x = k) :
    l.sum = (l.length : ℚ) * k := by
  induction l with
  | nil => simp
  | cons x t ih =>
    simp only [List.sum_cons, List.length_cons]
    rw [h x (List.mem_cons_self x t), ih (fun y hy => h y (List.mem_cons_of_mem x hy))]
    push_cast
    ring

theorem weightedValueSum_uniform (image : List ℚ) (width : Nat)
    (weightFunc : Coord → Coord → ℚ) (u : Coord) (c : ℚ) (vs : List Coord)
    (h : ∀ v ∈ vs, getPixel image v.x v.y width = c) :
    weightedValueSum image width weightFunc u vs =
      c * weightSum weightFunc u vs := by
  induction vs with
  | nil => simp [weightedValueSum, weightSum]
  | cons v t ih =>
    rw [weightedValueSum_cons, weightSum_cons,
      h v (List.mem_cons_self v t), ih (fun w hw => h w (List.mem_cons_of_mem v hw))]
    ring

theorem processLoop_const (width height : Nat) (k : ℚ) :
    ∀ (q : List Coord) (s : AState),
      s.image.length = width * height →
      (∀ z ∈ s.isHole, inGrid width height z) →
      (∀ z : Coord, inGrid width height z → z ∉ s.isHole →
        getPixel s.image z.x z.y width = k) →
      ∀ z : Coord, inGrid width height z →
        getPixel (processLoop width height q s).1.image z.x z.y width =
          getPixel s.image z.x z.y width ∨
        getPixel (processLoop width height q s).1.image z.x z.y width = k := by
  intro q s
  induction q, s using processLoop.induct width height with
  | case1 s =>
    intro _ _ _ z _
    rw [processLoop_nil]
    exact Or.inl rfl
  | case2 u q s hu hc =>
    rename_i ih
    intro hlen hin huni z hz
    rw [processLoop_cons_fill width height u q s hu hc]
    have hug : inGrid width height u := hin u hu
    have hwritten : getPixel (fillAState width height s u).image u.x u.y width = k := by
      show getPixel (setPixel s.image u.x u.y width _) u.x u.y width = k
      rw [getPixel_setPixel_eq s.image width height u hlen hug]
      have hvals : ∀ x ∈ (qualifyingNeighbors width height s u).map
          (fun v => getPixel s.image v.x v.y width), x = k := by
        intro x hx
        rw [List.mem_map] at hx
        obtain ⟨n, hn, rfl⟩ := hx
        obtain ⟨_, hng, hnnot, _⟩ := (qualifyingNeighbors_mem width height s u n).mp hn
        exact huni n hng hnnot
      rw [list_sum_const _ k hvals, List.length_map]
      have hne : ((qualifyingNeighbors width height s u).length : ℚ) ≠ 0 := by
        have := hc
        positivity
      field_simp
    have hlen' : (fillAState width height s u).image.length = width * height := by
      show (setPixel s.image u.x u.y width _).length = width * height
      rw [setPixel_length]; exact hlen
    have hin' : ∀ z ∈ (fillAState width height s u).isHole, inGrid width height z :=
      fun z hz => hin z (List.mem_of_mem_erase hz)
    have huni' : ∀ z : Coord, inGrid width height z →
        z ∉ (fillAState width height s u).isHole →
        getPixel (fillAState width height s u).image z.x z.y width = k := by
      intro z hzg hznot
      by_cases hzu : z = u
      · subst hzu
        exact hwritten
      · have hzs : z ∉ s.isHole := by
          intro hmem
          exact hznot ((List.mem_erase_of_ne hzu).mpr hmem)
        have : getPixel (fillAState width height s u).image z.x z.y width =
            getPixel s.image z.x z.y width := by
          show getPixel (setPixel s.image u.x u.y width _) z.x z.y width = _
          exact getPixel_setPixel_ne s.image width height u z hug hzg
            (fun h => hzu h.symm) _
        rw [this]
        exact huni z hzg hzs
    have IH : ∀ z : Coord, inGrid width height z →
        getPixel (processLoop width height
          (q ++ holeNeighbors width height (s.isHole.erase u) u)
          (fillAState width height s u)).1.image z.x z.y width =
          getPixel (fillAState width height s u).image z.x z.y width ∨
        getPixel (processLoop width height
          (q ++ holeNeighbors width height (s.isHole.erase u) u)
          (fillAState width height s u)).1.image z.x z.y width = k :=
      ih hlen' hin' huni'
    show getPixel (processLoop width height
        (q ++ holeNeighbors width height (s.isHole.erase u) u)
        (fillAState width height s u)).1.image z.x z.y width =
        getPixel s.image z.x z.y width ∨
      getPixel (processLoop width height
        (q ++ holeNeighbors width height (s.isHole.erase u) u)
        (fillAState width height s u)).1.image z.x z.y width = k
    rcases IH z hz with h | h
    · by_cases hzu : z = u
      · subst hzu
        exact Or.inr (h.trans hwritten)
      · left
        rw [h]
        show getPixel (setPixel s.image u.x u.y width _) z.x z.y width = _
        exact getPixel_setPixel_ne s.image width height u z hug hz
          (fun h' => hzu h'.symm) _
    · exact Or.inr h
  | case3 u q s hu hc ih =>
    intro hlen hin huni z hz
    rw [processLoop_cons_drop width height u q s hu hc]
    exact ih hlen hin huni z hz
  | case4 u q s hu ih =>
    intro hlen hin huni z hz
    rw [processLoop_cons_skip width height u q s hu]
    exact ih hlen hin huni z hz

/-- Claim C7 counterexample: on the buffer `[-1, 5]` (hole at `(0,0)`, single
valid pixel of value `5` which is also the boundary), the weight function
constantly `0` is non-negative and the boundary set is non-empty, yet `fill`
writes the fallback `0`, not the uniform valid value `5`, into the hole pixel
it fills: the accumulated denominator `0` fails the epsilon test. -/
theorem uniform_value_invariance_counterexample :
    (∀ u v : Coord, 0 ≤ (fun _ _ : Coord => (0 : ℚ)) u v) ∧
    (∀ i, i < ([(-1 : ℚ), 5]).length → 0 ≤ ([(-1 : ℚ), 5]).getD i 0 →
      ([(-1 : ℚ), 5]).getD i 0 = 5) ∧
    findBoundaryPixels [(-1 : ℚ), 5] 2 1 (findHolePixels [(-1 : ℚ), 5] 2 1) true ≠ [] ∧
    ⟨0, 0⟩ ∈ findHolePixels [(-1 : ℚ), 5] 2 1 ∧
    getPixel (fill [(-1 : ℚ), 5] 2 1 (fun _ _ => 0)) 0 0 2 = 0 ∧
    (0 : ℚ) ≠ 5 := by
  refine ⟨fun _ _ => le_refl 0, by decide, by decide, by decide, ?_, by decide⟩
  have hv := fillFold_value 2 1 (fun _ _ => 0)
    (fun _ => findBoundaryPixels [(-1 : ℚ), 5] 2 1 (findHolePixels [(-1 : ℚ), 5] 2 1) true)
    (findHolePixels [(-1 : ℚ), 5] 2 1) [(-1 : ℚ), 5] (by decide)
    (fun z hz => ((findHolePixels_mem [(-1 : ℚ), 5] 2 1 z).mp hz).1)
    (findHolePixels_nodup [(-1 : ℚ), 5] 2 1)
    (fun u' v hv =>
      ⟨((findBoundaryPixels_mem [(-1 : ℚ), 5] 2 1 _ true v).mp hv).1,
       ((findBoundaryPixels_mem [(-1 : ℚ), 5] 2 1 _ true v).mp hv).2.1⟩)
    ⟨0, 0⟩ (by decide)
  rw [fill_eq_fillFold]
  rw [hv]
  have hB : findBoundaryPixels [(-1 : ℚ), 5] 2 1
      (findHolePixels [(-1 : ℚ), 5] 2 1) true = [⟨1, 0⟩] := by decide
  rw [hB]
  simp only [weightSum, List.foldl_cons, List.foldl_nil]
  norm_num [eps]

/-- Claim C7 (amended): if every valid pixel shares value `c`, the boundary
set is non-empty and the weight function is non-negative, then `fill` and
`fillExactWithSearch` write exactly `c` into each hole pixel whose
accumulated weight denominator exceeds the epsilon threshold (without that
extra condition the fallback `0` is written instead, as the counterexample
shows), and `fillApproximate` — which takes no weight function — leaves
every pixel either unchanged or set to exactly `c`. -/
theorem uniform_value_fillers (image : List ℚ) (width height : Nat)
    (weightFunc : Coord → Coord → ℚ) (c : ℚ)
    (hlen : image.length = width * height)
    (_hwf : ∀ u v : Coord, 0 ≤ weightFunc u v)
    (huni : ∀ i, i < image.length → 0 ≤ image.getD i 0 → image.getD i 0 = c)
    (_hbne : findBoundaryPixels image width height
      (findHolePixels image width height) true ≠ []) :
    (∀ u ∈ findHolePixels image width height,
      eps < weightSum weightFunc u (findBoundaryPixels image width height
        (findHolePixels image width height) true) →
      getPixel (fill image width height weightFunc) u.x u.y width = c) ∧
    (∀ u ∈ findHolePixels image width height,
      eps < weightSum weightFunc u (radiusSearch
        (findBoundaryPixels image width height (findHolePixels image width height) true)
        u (calculateHoleInfo (findHolePixels image width height)).radiusSq) →
      getPixel (fillExactWithSearch image width height weightFunc) u.x u.y width = c) ∧
    (∀ z : Coord, inGrid width height z →
      getPixel (fillApproximate image width height) z.x z.y width =
        getPixel image z.x z.y width ∨
      getPixel (fillApproximate image width height) z.x z.y width = c) := by
  have huniG : ∀ z : Coord, inGrid width height z →
      0 ≤ getPixel image z.x z.y width → getPixel image z.x z.y width = c := by
    intro z hz hpos
    rw [getPixel_eq_getD] at hpos ⊢
    exact huni (flatIdx width z) (by rw [hlen]; exact flatIdx_lt width height z hz) hpos
  have hin : ∀ z ∈ findHolePixels image width height, inGrid width height z :=
    fun z hz => ((findHolePixels_mem image width height z).mp hz).1
  have hbval : ∀ v ∈ findBoundaryPixels image width height
      (findHolePixels image width height) true,
      getPixel image v.x v.y width = c := by
    intro v hv
    obtain ⟨hg, _, hge, _⟩ :=
      (findBoundaryPixels_mem image width height _ true v).mp hv
    exact huniG v hg hge
  have hsel : ∀ u' : Coord, ∀ v ∈ findBoundaryPixels image width height
      (findHolePixels image width height) true,
      inGrid width height v ∧ v ∉ findHolePixels image width height :=
    fun u' v hv =>
      ⟨((findBoundaryPixels_mem image width height _ true v).mp hv).1,
       ((findBoundaryPixels_mem image width height _ true v).mp hv).2.1⟩
  have hepspos : (0 : ℚ) < eps := by norm_num [eps]
  refine ⟨?_, ?_, ?_⟩
  · intro u hu hden
    rw [fill_eq_fillFold]
    rw [fillFold_value width height weightFunc _
      (findHolePixels image width height) image hlen hin
      (findHolePixels_nodup image width height)
      (fun u' v hv => hsel u' v hv) u hu]
    rw [if_pos hden]
    rw [weightedValueSum_uniform image width weightFunc u c _ hbval]
    have hwpos : weightSum weightFunc u (findBoundaryPixels image width height
        (findHolePixels image width height) true) ≠ 0 := by
      intro h
      rw [h] at hden
      linarith
    field_simp
  · intro u hu hden
    rw [fillExactWithSearch_eq_fillFold]
    rw [fillFold_value width height weightFunc
      (fun u' => radiusSearch
        (findBoundaryPixels image width height (findHolePixels image width height) true)
        u' (calculateHoleInfo (findHolePixels image width height)).radiusSq)
      (findHolePixels image width height) image hlen hin
      (findHolePixels_nodup image width height)
      (fun u' v hv => hsel u' _ (List.mem_of_mem_filter hv)) u hu]
    rw [if_pos hden]
    rw [weightedValueSum_uniform image width weightFunc u c
      (radiusSearch
        (findBoundaryPixels image width height (findHolePixels image width height) true)
        u (calculateHoleInfo (findHolePixels image width height)).radiusSq)
      (fun v hv => hbval v (List.mem_of_mem_filter hv))]
    have hwpos : weightSum weightFunc u (radiusSearch
        (findBoundaryPixels image width height (findHolePixels image width height) true)
        u (calculateHoleInfo (findHolePixels image width height)).radiusSq) ≠ 0 := by
      intro h
      rw [h] at hden
      linarith
    field_simp
  · intro z hz
    have huni0 : ∀ z : Coord, inGrid width height z →
        z ∉ findHolePixels image width height →
        getPixel image z.x z.y width = c := by
      intro z hzg hznot
      have : ¬ getPixel image z.x z.y width < 0 := by
        intro hneg
        exact hznot ((findHolePixels_mem image width height z).mpr ⟨hzg, hneg⟩)
      exact huniG z hzg (by linarith)
    unfold fillApproximate
    exact processLoop_const width height c (seedQueue image width height)
      ⟨image, findHolePixels image width height⟩ hlen hin huni0 z hz

theorem uniform_value_fillers_witness :
    getPixel (fill [(-1 : ℚ), 5] 2 1 (fun _ _ => 1)) 0 0 2 = 5 := by
  have hB : findBoundaryPixels [(-1 : ℚ), 5] 2 1
      (findHolePixels [(-1 : ℚ), 5] 2 1) true = [⟨1, 0⟩] := by decide
  have hden : eps < weightSum (fun _ _ => (1 : ℚ)) ⟨0, 0⟩
      (findBoundaryPixels [(-1 : ℚ), 5] 2 1 (findHolePixels [(-1 : ℚ), 5] 2 1) true) := by
    rw [hB]
    simp only [weightSum, List.foldl_cons, List.foldl_nil]
    norm_num [eps]
  exact (uniform_value_fillers [(-1 : ℚ), 5] 2 1 (fun _ _ => 1) 5 (by decide)
    (fun _ _ => by norm_num) (by decide) (by decide)).1 ⟨0, 0⟩ (by decide) hden

/-- A 3×3 buffer whose only hole is the single centre pixel `(1,1)`: the
failing input for the spec's radius-floor claim. -/
def singleHoleImage : List ℚ :=
  [1, 1, 1, 1, -1, 1, 1, 1, 1]

/-- Claim C5 evaluation: `calculateHoleInfo` applies no epsilon floor — for
the single-pixel hole the squared search radius is exactly `0`, the radius
query over the (non-empty) boundary returns the empty set, and
`fillExactWithSearch` writes the fallback `0` into the hole pixel instead of
a weighted average of the surrounding boundary pixels. -/
theorem single_pixel_hole_radius_bug :
    findHolePixels singleHoleImage 3 3 = [⟨1, 1⟩] ∧
    (calculateHoleInfo (findHolePixels singleHoleImage 3 3)).radiusSq = 0 ∧
    findBoundaryPixels singleHoleImage 3 3 (findHolePixels singleHoleImage 3 3) true ≠ [] ∧
    radiusSearch
      (findBoundaryPixels singleHoleImage 3 3 (findHolePixels singleHoleImage 3 3) true)
      ⟨1, 1⟩ (calculateHoleInfo (findHolePixels singleHoleImage 3 3)).radiusSq = [] ∧
    getPixel (fillExactWithSearch singleHoleImage 3 3 (fun _ _ => 1)) 1 1 3 = 0 := by
  have h1 : findHolePixels singleHoleImage 3 3 = [⟨1, 1⟩] := by decide
  have h2 : (calculateHoleInfo (findHolePixels singleHoleImage 3 3)).radiusSq = 0 := by
    rw [h1]
    unfold calculateHoleInfo
    simp only [List.foldl_cons, List.foldl_nil, List.length_cons, List.length_nil]
    norm_num
  have hB : findBoundaryPixels singleHoleImage 3 3 (findHolePixels singleHoleImage 3 3) true =
      [⟨0, 1⟩, ⟨2, 1⟩, ⟨1, 0⟩, ⟨1, 2⟩, ⟨0, 0⟩, ⟨0, 2⟩, ⟨2, 0⟩, ⟨2, 2⟩] := by decide
  have h4 : radiusSearch
      (findBoundaryPixels singleHoleImage 3 3 (findHolePixels singleHoleImage 3 3) true)
      ⟨1, 1⟩ (calculateHoleInfo (findHolePixels singleHoleImage 3 3)).radiusSq = [] := by
    rw [hB, h2]
    simp only [radiusSearch, distSq, List.filter]
    norm_num
  refine ⟨h1, h2, by decide, h4, ?_⟩
  rw [fillExactWithSearch_eq_fillFold]
  rw [fillFold_value 3 3 (fun _ _ => 1)
    (fun u' => radiusSearch
      (findBoundaryPixels singleHoleImage 3 3 (findHolePixels singleHoleImage 3 3) true)
      u' (calculateHoleInfo (findHolePixels singleHoleImage 3 3)).radiusSq)
    (findHolePixels singleHoleImage 3 3) singleHoleImage (by decide)
    (fun z hz => ((findHolePixels_mem singleHoleImage 3 3 z).mp hz).1)
    (findHolePixels_nodup singleHoleImage 3 3)
    (fun u' v hv =>
      ⟨((findBoundaryPixels_mem singleHoleImage 3 3 _ true v).mp
          (List.mem_of_mem_filter hv)).1,
       ((findBoundaryPixels_mem singleHoleImage 3 3 _ true v).mp
          (List.mem_of_mem_filter hv)).2.1⟩)
    ⟨1, 1⟩ (by rw [h1]; exact List.mem_cons_self _ _)]
  rw [h4]
  simp only [weightSum, List.foldl_nil]
  norm_num [eps]

/-- In a grid, a set of coordinates closed under taking in-bounds 8-connected
neighbours and containing some coordinate must contain every in-bounds
coordinate (walk one unit step at a time towards the target). -/
theorem grid_reach (width height : Nat) (S : List Coord)
    (hcl : ∀ c ∈ S, ∀ n : Coord, inGrid width height n →
      (∃ off ∈ offsets8, n = ⟨c.x + off.x, c.y + off.y⟩) → n ∈ S) :
    ∀ (d : Nat) (c p : Coord),
      (c.x - p.x).natAbs + (c.y - p.y).natAbs = d →
      c ∈ S → inGrid width height c → inGrid width height p → p ∈ S := by
  intro d
  induction d using Nat.strong_induction_on with
  | _ d ih =>
    intro c p hd hc hcg hpg
    obtain ⟨hcx0, hcxw, hcy0, hcyh⟩ := hcg
    obtain ⟨hpx0, hpxw, hpy0, hpyh⟩ := hpg
    rcases lt_trichotomy c.x p.x with hx | hx | hx
    · have hoff : (⟨1, 0⟩ : Coord) ∈ offsets8 := by decide
      have hc'g : inGrid width height ⟨c.x + 1, c.y + 0⟩ := by
        unfold inGrid
        dsimp only
        omega
      have hc' : (⟨c.x + 1, c.y + 0⟩ : Coord) ∈ S :=
        hcl c hc _ hc'g ⟨⟨1, 0⟩, hoff, rfl⟩
      exact ih ((c.x + 1 - p.x).natAbs + (c.y + 0 - p.y).natAbs) (by omega)
        ⟨c.x + 1, c.y + 0⟩ p rfl hc' hc'g ⟨hpx0, hpxw, hpy0, hpyh⟩
    · rcases lt_trichotomy c.y p.y with hy | hy | hy
      · have hoff : (⟨0, 1⟩ : Coord) ∈ offsets8 := by decide
        have hc'g : inGrid width height ⟨c.x + 0, c.y + 1⟩ := by
          unfold inGrid
          dsimp only
          omega
        have hc' : (⟨c.x + 0, c.y + 1⟩ : Coord) ∈ S :=
          hcl c hc _ hc'g ⟨⟨0, 1⟩, hoff, rfl⟩
        exact ih ((c.x + 0 - p.x).natAbs + (c.y + 1 - p.y).natAbs) (by omega)
          ⟨c.x + 0, c.y + 1⟩ p rfl hc' hc'g ⟨hpx0, hpxw, hpy0, hpyh⟩
      · have hcp : c = p := by
          cases c; cases p
          simp_all
        subst hcp
        exact hc
      · have hoff : (⟨0, -1⟩ : Coord) ∈ offsets8 := by decide
        have hc'g : inGrid width height ⟨c.x + 0, c.y + -1⟩ := by
          unfold inGrid
          dsimp only
          omega
        have hc' : (⟨c.x + 0, c.y + -1⟩ : Coord) ∈ S :=
          hcl c hc _ hc'g ⟨⟨0, -1⟩, hoff, rfl⟩
        exact ih ((c.x + 0 - p.x).natAbs + (c.y + -1 - p.y).natAbs) (by omega)
          ⟨c.x + 0, c.y + -1⟩ p rfl hc' hc'g ⟨hpx0, hpxw, hpy0, hpyh⟩
    · have hoff : (⟨-1, 0⟩ : Coord) ∈ offsets8 := by decide
      have hc'g : inGrid width height ⟨c.x + -1, c.y + 0⟩ := by
        unfold inGrid
        dsimp only
        omega
      have hc' : (⟨c.x + -1, c.y + 0⟩ : Coord) ∈ S :=
        hcl c hc _ hc'g ⟨⟨-1, 0⟩, hoff, rfl⟩
      exact ih ((c.x + -1 - p.x).natAbs + (c.y + 0 - p.y).natAbs) (by omega)
        ⟨c.x + -1, c.y + 0⟩ p rfl hc' hc'g ⟨hpx0, hpxw, hpy0, hpyh⟩

theorem offsets8_neg : ∀ off ∈ offsets8, Coord.mk (-off.x) (-off.y) ∈ offsets8 := by
  decide

theorem processLoop_post (width height : Nat) :
    ∀ (q : List Coord) (s : AState),
      s.image.length = width * height →
      s.isHole.Nodup →
      (∀ z ∈ s.isHole, inGrid width height z) →
      (∀ z : Coord, inGrid width height z → z ∉ s.isHole →
        0 ≤ getPixel s.image z.x z.y width) →
      (∀ z ∈ s.isHole, qualifyingNeighbors width height s z ≠ [] → z ∈ q) →
      (∀ z : Coord, inGrid width height z →
        z ∉ (processLoop width height q s).1.isHole →
        0 ≤ getPixel (processLoop width height q s).1.image z.x z.y width) ∧
      (∀ z ∈ (processLoop width height q s).1.isHole,
        qualifyingNeighbors width height (processLoop width height q s).1 z = []) := by
  intro q s
  induction q, s using processLoop.induct width height with
  | case1 s =>
    intro _ _ _ hval hq
    rw [processLoop_nil]
    refine ⟨hval, ?_⟩
    intro z hz
    by_contra hne
    exact absurd (hq z hz hne) (List.not_mem_nil z)
  | case2 u q s hu hc =>
    rename_i ih
    intro hlen hnd hin hval hq
    rw [processLoop_cons_fill width height u q s hu hc]
    have hug : inGrid width height u := hin u hu
    have hlen2 : (fillAState width height s u).image.length = width * height := by
      show (setPixel s.image u.x u.y width _).length = width * height
      rw [setPixel_length]; exact hlen
    have hnd2 : (fillAState width height s u).isHole.Nodup := hnd.erase u
    have hin2 : ∀ z ∈ (fillAState width height s u).isHole, inGrid width height z :=
      fun z hz => hin z (List.mem_of_mem_erase hz)
    have hwnonneg : 0 ≤ getPixel (fillAState width height s u).image u.x u.y width := by
      show 0 ≤ getPixel (setPixel s.image u.x u.y width _) u.x u.y width
      rw [getPixel_setPixel_eq s.image width height u hlen hug]
      apply div_nonneg
      · apply List.sum_nonneg
        intro x hx
        rw [List.mem_map] at hx
        obtain ⟨n, hn, rfl⟩ := hx
        exact ((qualifyingNeighbors_mem width height s u n).mp hn).2.2.2
      · positivity
    have hval2 : ∀ z : Coord, inGrid width height z →
        z ∉ (fillAState width height s u).isHole →
        0 ≤ getPixel (fillAState width height s u).image z.x z.y width := by
      intro z hz hznot
      by_cases hzu : z = u
      · subst hzu
        exact hwnonneg
      · have hzs : z ∉ s.isHole :=
          fun hmem => hznot ((List.mem_erase_of_ne hzu).mpr hmem)
        have heq : getPixel (fillAState width height s u).image z.x z.y width =
            getPixel s.image z.x z.y width := by
          show getPixel (setPixel s.image u.x u.y width _) z.x z.y width = _
          exact getPixel_setPixel_ne s.image width height u z hug hz
            (fun h => hzu h.symm) _
        rw [heq]
        exact hval z hz hzs
    have hq2 : ∀ z ∈ (fillAState width height s u).isHole,
        qualifyingNeighbors width height (fillAState width height s u) z ≠ [] →
        z ∈ q ++ holeNeighbors width height (s.isHole.erase u) u := by
      intro z hz hqn
      have hzmem : z ∈ s.isHole.erase u := hz
      have hzne : z ≠ u := ((List.Nodup.mem_erase_iff hnd).mp hzmem).1
      have hzs : z ∈ s.isHole := List.mem_of_mem_erase hzmem
      obtain ⟨n, hn⟩ := List.exists_mem_of_ne_nil _ hqn
      obtain ⟨⟨off, hoff, hnoff⟩, hng, hnnot, hnval⟩ :=
        (qualifyingNeighbors_mem width height (fillAState width height s u) z n).mp hn
      by_cases hns : n ∈ s.isHole
      · have hnu : n = u := by
          by_contra hne
          exact hnnot (show n ∈ (fillAState width height s u).isHole from
            (List.Nodup.mem_erase_iff hnd).mpr ⟨hne, hns⟩)
        apply List.mem_append_right
        rw [holeNeighbors_mem]
        have hux : u.x = z.x + off.x := by rw [← hnu, hnoff]
        have huy : u.y = z.y + off.y := by rw [← hnu, hnoff]
        refine ⟨⟨⟨-off.x, -off.y⟩, offsets8_neg off hoff, ?_⟩, hin z hzs, hzmem⟩
        cases z
        dsimp only at hux huy ⊢
        simp only [Coord.mk.injEq]
        omega
      · have hnu : n ≠ u := fun h => hns (h ▸ hu)
        have hnvalS : 0 ≤ getPixel s.image n.x n.y width := by
          have heq : getPixel (fillAState width height s u).image n.x n.y width =
              getPixel s.image n.x n.y width := by
            show getPixel (setPixel s.image u.x u.y width _) n.x n.y width = _
            exact getPixel_setPixel_ne s.image width height u n hug hng
              (fun h => hnu h.symm) _
          rw [← heq]
          exact hnval
        have hqs : qualifyingNeighbors width height s z ≠ [] :=
          List.ne_nil_of_mem ((qualifyingNeighbors_mem width height s z n).mpr
            ⟨⟨off, hoff, hnoff⟩, hng, hns, hnvalS⟩)
        rcases List.mem_cons.mp (hq z hzs hqs) with h | hzq
        · exact absurd h hzne
        · exact List.mem_append_left _ hzq
    exact ih hlen2 hnd2 hin2 hval2 hq2
  | case3 u q s hu hc ih =>
    intro hlen hnd hin hval hq
    rw [processLoop_cons_drop width height u q s hu hc]
    have hlen0 : (qualifyingNeighbors width height s u).length = 0 := by omega
    have hqe : qualifyingNeighbors width height s u = [] :=
      List.length_eq_zero.mp hlen0
    refine ih hlen hnd hin hval ?_
    intro z hz hqn
    rcases List.mem_cons.mp (hq z hz hqn) with h | h
    · subst h
      exact absurd hqe hqn
    · exact h
  | case4 u q s hu ih =>
    intro hlen hnd hin hval hq
    rw [processLoop_cons_skip width height u q s hu]
    refine ih hlen hnd hin hval ?_
    intro z hz hqn
    rcases List.mem_cons.mp (hq z hz hqn) with h | h
    · subst h
      exact absurd hz hu
    · exact h

/-- Claim C2: after `fillApproximate` returns, if at least one pixel of the
buffer was non-negative before the call then no pixel is negative; and if
every pixel was negative before the call the buffer is unchanged. -/
theorem fillApproximate_full_coverage (image : List ℚ) (width height : Nat)
    (hlen : image.length = width * height) :
    ((∃ i, i < image.length ∧ 0 ≤ image.getD i 0) →
      ∀ z : Coord, inGrid width height z →
        0 ≤ getPixel (fillApproximate image width height) z.x z.y width) ∧
    ((∀ i, i < image.length → image.getD i 0 < 0) →
      fillApproximate image width height = image) := by
  constructor
  · intro hex z hz
    obtain ⟨i, hi, hpos⟩ := hex
    have hwh : 0 < width * height := by rw [hlen] at hi; omega
    have hw : 0 < width := by
      rcases Nat.eq_zero_or_pos width with h | h
      · rw [h] at hwh; simp at hwh
      · exact h
    have hh : 0 < height := by
      rcases Nat.eq_zero_or_pos height with h | h
      · rw [h] at hwh; simp at hwh
      · exact h
    have hp0g : inGrid width height ⟨((i % width : Nat) : Int), ((i / width : Nat) : Int)⟩ := by
      refine ⟨Int.natCast_nonneg _, ?_, Int.natCast_nonneg _, ?_⟩
      · show ((i % width : Nat) : Int) < (width : Int)
        exact_mod_cast Nat.mod_lt i hw
      · show ((i / width : Nat) : Int) < (height : Int)
        have : i / width < height := by
          rw [Nat.div_lt_iff_lt_mul hw]
          rw [hlen] at hi
          calc i < width * height := hi
            _ = height * width := Nat.mul_comm width height
        exact_mod_cast this
    have hfi : flatIdx width ⟨((i % width : Nat) : Int), ((i / width : Nat) : Int)⟩ = i := by
      unfold flatIdx
      dsimp only
      have h := Nat.div_add_mod i width
      rw [Nat.mul_comm width (i / width)] at h
      rw [show ((i / width : Nat) : Int) * (width : Int) + ((i % width : Nat) : Int) =
        (((i / width) * width + i % width : Nat) : Int) by push_cast; ring]
      omega
    have hp0pos : 0 ≤ getPixel image ((i % width : Nat) : Int) ((i / width : Nat) : Int) width := by
      have := getPixel_eq_getD image width ⟨((i % width : Nat) : Int), ((i / width : Nat) : Int)⟩
      dsimp only at this
      rw [this, hfi]
      exact hpos
    have hp0not : (⟨((i % width : Nat) : Int), ((i / width : Nat) : Int)⟩ : Coord) ∉
        findHolePixels image width height := by
      rw [findHolePixels_mem]
      rintro ⟨_, hneg⟩
      dsimp only at hneg
      linarith
    have hin : ∀ w ∈ findHolePixels image width height, inGrid width height w :=
      fun w hw => ((findHolePixels_mem image width height w).mp hw).1
    have hval0 : ∀ w : Coord, inGrid width height w →
        w ∉ findHolePixels image width height →
        0 ≤ getPixel image w.x w.y width := by
      intro w hwg hwnot
      by_contra hneg
      push_neg at hneg
      exact hwnot ((findHolePixels_mem image width height w).mpr ⟨hwg, hneg⟩)
    have hq0 : ∀ w ∈ findHolePixels image width height,
        qualifyingNeighbors width height
          ⟨image, findHolePixels image width height⟩ w ≠ [] →
        w ∈ seedQueue image width height := by
      intro w hw hqn
      unfold seedQueue
      rw [List.mem_filter]
      refine ⟨hw, ?_⟩
      simp only [Bool.not_eq_eq_eq_not, Bool.not_true, List.isEmpty_eq_false]
      exact hqn
    obtain ⟨hvalF, hqF⟩ := processLoop_post width height
      (seedQueue image width height) ⟨image, findHolePixels image width height⟩
      hlen (findHolePixels_nodup image width height) hin hval0 hq0
    have hSempty : ∀ c : Coord,
        c ∉ (processLoop width height (seedQueue image width height)
          ⟨image, findHolePixels image width height⟩).1.isHole := by
      intro c hcF
      have hclosed : ∀ c' ∈ (processLoop width height (seedQueue image width height)
            ⟨image, findHolePixels image width height⟩).1.isHole,
          ∀ n : Coord, inGrid width height n →
          (∃ off ∈ offsets8, n = ⟨c'.x + off.x, c'.y + off.y⟩) →
          n ∈ (processLoop width height (seedQueue image width height)
            ⟨image, findHolePixels image width height⟩).1.isHole := by
        intro c' hc' n hng hadj
        by_contra hnot
        have hmem : n ∈ qualifyingNeighbors width height
            (processLoop width height (seedQueue image width height)
              ⟨image, findHolePixels image width height⟩).1 c' :=
          (qualifyingNeighbors_mem width height _ c' n).mpr
            ⟨hadj, hng, hnot, hvalF n hng hnot⟩
        exact absurd (hqF c' hc') (List.ne_nil_of_mem hmem)
      have hcg : inGrid width height c :=
        hin c (processLoop_isHole_subset width height _ _ hcF)
      have hp0F := grid_reach width height _ hclosed _ c
        ⟨((i % width : Nat) : Int), ((i / width : Nat) : Int)⟩ rfl hcF hcg hp0g
      exact hp0not (processLoop_isHole_subset width height _ _ hp0F)
    unfold fillApproximate
    exact hvalF z hz (hSempty z)
  · intro hneg
    have hallhole : ∀ z : Coord, inGrid width height z →
        z ∈ findHolePixels image width height := by
      intro z hz
      rw [findHolePixels_mem]
      refine ⟨hz, ?_⟩
      rw [getPixel_eq_getD]
      exact hneg (flatIdx width z) (by rw [hlen]; exact flatIdx_lt width height z hz)
    have hseeds : seedQueue image width height = [] := by
      unfold seedQueue
      rw [List.filter_eq_nil_iff]
      intro p _
      have hqe : qualifyingNeighbors width height
          ⟨image, findHolePixels image width height⟩ p = [] := by
        by_contra hne
        obtain ⟨n, hn⟩ := List.exists_mem_of_ne_nil _ hne
        obtain ⟨_, hng, hnnot, _⟩ :=
          (qualifyingNeighbors_mem width height _ p n).mp hn
        exact hnnot (hallhole n hng)
      rw [hqe]
      simp
    unfold fillApproximate
    rw [hseeds, processLoop_nil]

theorem fillApproximate_full_coverage_witness :
    0 ≤ getPixel (fillApproximate [(-1 : ℚ), 3] 2 1) 0 0 2 :=
  (fillApproximate_full_coverage [(-1 : ℚ), 3] 2 1 (by decide)).1
    ⟨1, by decide, by decide⟩ ⟨0, 0⟩ (by decide)
